import Mathlib

/-!
Verification of the roadmap storage/consistency engine of the
Opencode-Roadmap repository against its natural-language specification.

The engine's sources live in `src/roadmap/document.ts` (document codec),
`src/storage.ts` (file storage facade), `src/validators.ts`
(identifier/status validation) and `src/tools/createroadmap.ts`
(validate/merge engine).  JavaScript strings are modelled as `List Char`;
the regular expressions used by the codec are embedded as explicit
deterministic matching functions that follow the backtracking behaviour of
the JavaScript regex engine on the relevant patterns; thrown exceptions are
modelled with `Except`.
-/

namespace Opencode

/-- JavaScript strings are modelled as lists of characters. -/
abbrev Str := List Char

/-- Coerce a Lean string literal to the character-list model. -/
def str (s : String) : Str := s.data

/-- The set of JavaScript whitespace characters: the WhiteSpace and
LineTerminator productions, as used by `String.prototype.trim` and by the
regex class `\s`. -/
def jsWs (c : Char) : Bool :=
  let n := c.val.toNat
  n == 0x9 || n == 0xA || n == 0xB || n == 0xC ||
  n == 0xD || n == 0x20 || n == 0xA0 || n == 0x1680 ||
  (0x2000 ≤ n && n ≤ 0x200A) || n == 0x2028 ||
  n == 0x2029 || n == 0x202F || n == 0x205F ||
  n == 0x3000 || n == 0xFEFF

/-- JavaScript line terminators; the regex `.` matches any character that is
not one of these. -/
def lineTerm (c : Char) : Bool :=
  let n := c.val.toNat
  n == 0xA || n == 0xD || n == 0x2028 || n == 0x2029

/-- A character matched by the regex `.` (not a line terminator). -/
def dotOk (c : Char) : Bool := !(lineTerm c)

/-- The regex digit class `\d`, the characters 0-9. -/
def isDig (c : Char) : Bool := 48 ≤ c.val.toNat && c.val.toNat ≤ 57

/-- Model of `String.prototype.trimStart`. -/
def jsTrimStart (l : Str) : Str := l.dropWhile jsWs

/-- Model of `String.prototype.trimEnd`. -/
def jsTrimEnd (l : Str) : Str := ((l.reverse.dropWhile jsWs)).reverse

/-- Model of `String.prototype.trim`. -/
def jsTrim (l : Str) : Str := jsTrimEnd (jsTrimStart l)

/-- Model of `String.prototype.split` with a single-character separator. -/
def splitChar (c : Char) : Str → List Str
  | [] => [[]]
  | x :: t =>
    if x = c then [] :: splitChar c t
    else
      match splitChar c t with
      | p :: ps => (x :: p) :: ps
      | [] => [[x]]

/-- Model of `Array.prototype.join` with separator `"\n"`. -/
def joinNL : List Str → Str
  | [] => []
  | [l] => l
  | l :: l2 :: ls => l ++ '\n' :: joinNL (l2 :: ls)

/-- First index at which `pat` occurs in the string, as used by
`String.prototype.indexOf`. -/
def findIdx (pat : Str) : Str → Option Nat
  | [] => if pat.isPrefixOf ([] : Str) then some 0 else none
  | c :: t =>
    if pat.isPrefixOf (c :: t) then some 0
    else (findIdx pat t).map (· + 1)

/-! ## Data model (`src/types.ts`) -/

/-- The `ActionStatus` enumeration of `src/types.ts`. -/
inductive ActionStatus where
  | pending
  | in_progress
  | completed
  | cancelled
deriving DecidableEq, Repr

/-- An `Action` record of `src/types.ts`. -/
structure Action where
  number : Str
  description : Str
  status : ActionStatus
deriving DecidableEq, Repr

/-- A `Feature` record of `src/types.ts`. -/
structure Feature where
  number : Str
  title : Str
  description : Str
  actions : List Action
deriving DecidableEq, Repr

/-- The `Roadmap` root aggregate of `src/types.ts`. -/
structure Roadmap where
  features : List Feature
deriving DecidableEq, Repr

/-- The persisted `RoadmapDocument` of `src/types.ts`: a roadmap plus the
`feature` and `spec` metadata fields. -/
structure RoadmapDocument where
  feature : Str
  spec : Str
  roadmap : Roadmap
deriving DecidableEq, Repr

/-! ## Document codec (`src/roadmap/document.ts`) -/

/-- Lowercase hexadecimal digit, for `\u00XX` escapes. -/
def hexDigit (n : Nat) : Char :=
  if n < 10 then Char.ofNat (48 + n) else Char.ofNat (87 + n)

/-- Escaping of one character inside a JSON string literal, as performed by
the host `JSON.stringify` on strings. -/
def jsonEscChar (c : Char) : Str :=
  if c = '"' then ['\\', '"']
  else if c = '\\' then ['\\', '\\']
  else if c = '\n' then ['\\', 'n']
  else if c = '\r' then ['\\', 'r']
  else if c = '\t' then ['\\', 't']
  else if c.val.toNat = 0x8 then ['\\', 'b']
  else if c.val.toNat = 0xC then ['\\', 'f']
  else if c.val.toNat < 0x20 then
    ['\\', 'u', '0', '0', hexDigit (c.val.toNat / 16), hexDigit (c.val.toNat % 16)]
  else [c]

/-- Model of `JSON.stringify` applied to a string value (used for the
`feature:` frontmatter scalar in `buildDocument`). -/
def jsonStr (s : Str) : Str := '"' :: (s.flatMap jsonEscChar) ++ ['"']

/-- The `STATUS_MAP` lookup table of `document.ts`. -/
def statusMap (c : Char) : Option ActionStatus :=
  if c = ' ' then some .pending
  else if c = 'x' then some .completed
  else if c = 'X' then some .completed
  else if c = '~' then some .in_progress
  else if c = '-' then some .cancelled
  else none

/-- `renderAction` of `document.ts`: the checkbox prefix for a status. -/
def renderAction (s : ActionStatus) : Str :=
  match s with
  | .completed => str ("- [x]")
  | .in_progress => str ("- [~]")
  | .cancelled => str ("- [-]")
  | .pending => str ("- [ ]")

/-- The lines `buildTaskList` emits for one feature: header, description,
one line per action, then a blank line. -/
def featureLines (f : Feature) : List Str :=
  (str ("### Feature ") ++ f.number ++ str (": ") ++ f.title) ::
  (str ("Description: ") ++ f.description) ::
  (f.actions.map fun a => renderAction a.status ++ ' ' :: a.number ++ ' ' :: a.description)
  ++ [[]]

/-- The line list built by `buildTaskList` of `document.ts`. -/
def buildTaskListLines (r : Roadmap) : List Str :=
  (r.features.map featureLines).flatten

/-- `buildTaskList` of `document.ts` (`lines.join("\n")`). -/
def buildTaskList (r : Roadmap) : Str := joinNL (buildTaskListLines r)

/-- The `specLines` computed by `buildDocument`: the trimmed spec split on
newlines, with an empty spec contributing a single empty line. -/
def specLinesOf (spec : Str) : List Str :=
  let specValue := jsTrimEnd spec
  if specValue = [] then [[]] else splitChar '\n' specValue

/-- The indented spec block lines of `buildDocument`. -/
def specBlockLines (spec : Str) : List Str :=
  (specLinesOf spec).map fun l => ' ' :: ' ' :: l

/-- `buildDocument` of `document.ts`: frontmatter with a JSON-quoted
`feature` scalar and a block-literal `spec`, then the task list, joined with
newlines. -/
def buildDocument (d : RoadmapDocument) : Str :=
  joinNL [str ("---"),
          str ("feature: ") ++ jsonStr d.feature,
          str ("spec: |"),
          joinNL (specBlockLines d.spec),
          str ("---"),
          [],
          str ("## Task List"),
          [],
          buildTaskList d.roadmap]

/-- The trailing `\s*(.+)$` part of the codec regexes: greedily consume
whitespace, then capture a non-empty run of `.`-matchable characters
extending to the end of the line.  Mirrors the JavaScript backtracking
behaviour: the greedy `\s*` gives characters back one at a time until the
capture is non-empty. -/
def tailCapture (r : Str) : Option Str :=
  let m := (r.takeWhile jsWs).length
  if m < r.length then
    if (r.drop m).all dotOk then some (r.drop m) else none
  else
    match r.getLast? with
    | some c => if dotOk c then some [c] else none
    | none => none

/-- The trailing `\s+(.+)$` part of the action regex: like `tailCapture`,
but at least one whitespace character must be consumed. -/
def tailCapture1 (r : Str) : Option Str :=
  let m := (r.takeWhile jsWs).length
  if m = 0 then none
  else if m < r.length then
    if (r.drop m).all dotOk then some (r.drop m) else none
  else
    if 2 ≤ m then
      match r.getLast? with
      | some c => if dotOk c then some [c] else none
      | none => none
    else none

/-- Matcher for the feature-header regex
`/^#+\s*Feature\s+(\d+)\s*:\s*(.+)$/` of `parseTaskList`; returns the two
captures. -/
def featureMatch (l : Str) : Option (Str × Str) :=
  let hs := l.takeWhile (· = '#')
  if hs = [] then none
  else
    let r2 := (l.drop hs.length).dropWhile jsWs
    if (str ("Feature")).isPrefixOf r2 then
      let r3 := r2.drop 7
      let ws1 := r3.takeWhile jsWs
      if ws1 = [] then none
      else
        let r4 := r3.drop ws1.length
        let ds := r4.takeWhile isDig
        if ds = [] then none
        else
          match (r4.drop ds.length).dropWhile jsWs with
          | ':' :: r6 => (tailCapture r6).map fun t => (ds, t)
          | _ => none
    else none

/-- Matcher for the description regex `/^Description:\s*(.+)$/` of
`parseTaskList`. -/
def descMatch (l : Str) : Option Str :=
  if (str ("Description:")).isPrefixOf l then tailCapture (l.drop 12) else none

/-- The status-glyph character class `[ xX~-]` of the action regex. -/
def glyphOK (c : Char) : Bool :=
  c = ' ' || c = 'x' || c = 'X' || c = '~' || c = '-'

/-- Matcher for the action regex
`/^-\s*\[([ xX~-])\]\s+(\d+\.\d{2})\s+(.+)$/` of `parseTaskList`; returns
the glyph, the action number and the description capture. -/
def actionMatch (l : Str) : Option (Char × Str × Str) :=
  match l with
  | '-' :: r1 =>
    match r1.dropWhile jsWs with
    | '[' :: g :: ']' :: r2 =>
      if glyphOK g then
        let ws := r2.takeWhile jsWs
        if ws = [] then none
        else
          let r3 := r2.drop ws.length
          let ds := r3.takeWhile isDig
          if ds = [] then none
          else
            match r3.drop ds.length with
            | '.' :: d1 :: d2 :: r4 =>
              if isDig d1 && isDig d2 then
                (tailCapture1 r4).map fun t => (g, ds ++ '.' :: [d1, d2], t)
              else none
            | _ => none
      else none
    | _ => none
  | _ => none

/-- Intermediate state of the `parseTaskList` loop: the accumulated features
and the feature currently being filled in. -/
structure ParseSt where
  features : List Feature
  current : Option Feature
deriving DecidableEq, Repr

/-- One iteration of the `parseTaskList` loop of `document.ts`. -/
def taskStep (st : ParseSt) (line : Str) : Except String ParseSt :=
  let t := jsTrim line
  if t = [] ∨ t = str ("## Task List") then .ok st
  else
    match featureMatch t with
    | some (n, title) =>
      .ok ⟨st.features ++ st.current.toList, some ⟨n, jsTrim title, [], []⟩⟩
    | none =>
      match descMatch t with
      | some d =>
        match st.current with
        | none => .error ("Roadmap format is invalid. Description must follow a feature header.")
        | some f => .ok ⟨st.features, some { f with description := jsTrim d }⟩
      | none =>
        match actionMatch t with
        | some (g, num, d) =>
          match st.current with
          | none => .error ("Roadmap format is invalid. Action must follow a feature header.")
          | some f =>
            match statusMap g with
            | none => .error ("Roadmap format is invalid. Unsupported status marker.")
            | some status =>
              if ((splitChar '.' num).headD []) ≠ f.number then
                .error ("Action \"" ++ String.mk num ++ "\" does not belong to feature \"" ++ String.mk f.number ++ "\".")
              else
                .ok ⟨st.features, some { f with actions := f.actions ++ [⟨num, jsTrim d, status⟩] }⟩
        | none => .ok st

/-- The validation loop at the end of `parseTaskList`: every feature needs a
non-empty description and at least one action. -/
def finalCheck : List Feature → Option String
  | [] => none
  | f :: t =>
    if f.description = [] then
      some ("Feature \"" ++ String.mk f.number ++ "\" is missing a description.")
    else if f.actions = [] then
      some ("Feature \"" ++ String.mk f.number ++ "\" must include at least one action.")
    else finalCheck t

/-- `parseTaskList` of `document.ts`. -/
def parseTaskList (body : Str) : Except String Roadmap := do
  let st ← (splitChar '\n' body).foldlM taskStep ⟨[], none⟩
  let features := st.features ++ st.current.toList
  if features = [] then
    throw ("Roadmap format is invalid. Missing task list.")
  else
    match finalCheck features with
    | some e => throw e
    | none => pure ⟨features⟩

/-- `parseScalar` of `document.ts`: trim, then strip one pair of matching
surrounding quotes (no unescaping). -/
def parseScalar (v : Str) : Str :=
  let t := jsTrim v
  if t.head? = some '"' ∧ t.getLast? = some '"' then (t.drop 1).dropLast
  else if t.head? = some '\'' ∧ t.getLast? = some '\'' then (t.drop 1).dropLast
  else t

/-- The leading-whitespace count `/^\s+/` used by `normalizeSpec`. -/
def wsCount (l : Str) : Nat := (l.takeWhile jsWs).length

/-- `normalizeSpec` of `document.ts`: strip the common minimum indentation
and trim trailing whitespace. -/
def normalizeSpec (lines : List Str) : Str :=
  match lines with
  | [] => []
  | _ =>
    let nonEmpty := lines.filter fun l => jsTrim l ≠ []
    let indent :=
      if nonEmpty = [] then 0
      else (nonEmpty.map wsCount).foldl min (2 ^ 53 - 1)
    jsTrimEnd (joinNL (lines.map fun l => l.drop indent))

/-- The line scan of `parseFrontmatter`: remembers the last `feature:`
scalar and the index of the last `spec:` line (which must read `spec: |`). -/
def fmScan : List Str → Nat → Option Str → Option Nat → Except String (Option Str × Option Nat)
  | [], _, feat, sp => .ok (feat, sp)
  | l :: t, i, feat, sp =>
    let feat2 := if (str ("feature:")).isPrefixOf l then some (parseScalar (l.drop 8)) else feat
    if (str ("spec:")).isPrefixOf l then
      if jsTrim l = str ("spec: |") then fmScan t (i + 1) feat2 (some i)
      else .error ("Roadmap format is invalid. Spec must use a block value.")
    else fmScan t (i + 1) feat2 sp

/-- `parseFrontmatter` of `document.ts`. -/
def parseFrontmatter (fm : Str) : Except String (Str × Str) := do
  let lines := splitChar '\n' fm
  let (feat?, sp?) ← fmScan lines 0 none none
  match feat? with
  | none => throw ("Roadmap format is invalid. Missing feature.")
  | some f =>
    if f = [] then throw ("Roadmap format is invalid. Missing feature.")
    else
      match sp? with
      | none => throw ("Roadmap format is invalid. Missing spec.")
      | some i => pure (f, normalizeSpec (lines.drop (i + 1)))

/-- The frontmatter end marker `"\n---\n"`. -/
def fmEnd : Str := ['\n', '-', '-', '-', '\n']

/-- `splitFrontmatter` of `document.ts`: the document must start with
`"---\n"`; the frontmatter runs to the first later `"\n---\n"`. -/
def splitFrontmatter (data : Str) : Except String (Str × Str) :=
  if (str ("---\n")).isPrefixOf data then
    let rest := data.drop 4
    match findIdx fmEnd rest with
    | some j => .ok (rest.take j, rest.drop (j + 5))
    | none => .error ("Roadmap format is invalid. Frontmatter is not closed.")
  else .error ("Roadmap format is invalid. Missing frontmatter.")

/-- `parseDocument` of `document.ts`. -/
def parseDocument (data : Str) : Except String RoadmapDocument := do
  let (fm, body) ← splitFrontmatter data
  let (feat, sp) ← parseFrontmatter fm
  let rm ← parseTaskList body
  pure ⟨feat, sp, rm⟩

/-! ## Validators (`src/validators.ts`, re-exported by `src/storage.ts`) -/

/-- A `ValidationError` record of `src/types.ts` (the optional `tutorial`
field is never set by the validators). -/
structure ValidationError where
  code : String
  message : String
deriving DecidableEq, Repr

/-- The `fieldType` parameter of `validateTitle`/`validateDescription`. -/
inductive FieldKind where
  | feature
  | action
deriving DecidableEq, Repr

/-- The lowercase field name. -/
def fieldName : FieldKind → String
  | .feature => "feature"
  | .action => "action"

/-- The capitalized field name (`charAt(0).toUpperCase() + slice(1)`). -/
def fieldNameCap : FieldKind → String
  | .feature => "Feature"
  | .action => "Action"

/-- Value of the decimal digit string `ds` (used for `parseInt`/`parseFloat`
models). -/
def digitsVal (ds : Str) : Nat :=
  ds.foldl (fun acc c => acc * 10 + (c.val.toNat - 48)) 0

/-- The regex test `^\d+$` of `validateFeatureNumber`. -/
def featureNumFormat (n : Str) : Bool := !n.isEmpty && n.all isDig

/-- The regex test `^\d+\.\d{2}$` of `validateActionNumber`. -/
def actionNumFormat (a : Str) : Bool :=
  let ds := a.takeWhile isDig
  !ds.isEmpty &&
    (match a.drop ds.length with
     | ['.', d1, d2] => isDig d1 && isDig d2
     | _ => false)

/-- `RoadmapValidator.validateFeatureNumber`. -/
def validateFeatureNumber (n : Str) : Option ValidationError :=
  if n = [] then
    some ⟨"INVALID_FEATURE_NUMBER", "Invalid feature ID: must be a string."⟩
  else if !featureNumFormat n then
    some ⟨"INVALID_FEATURE_NUMBER_FORMAT", "Invalid feature ID format: must be a simple number."⟩
  else none

/-- `RoadmapValidator.validateActionNumber`. -/
def validateActionNumber (a : Str) : Option ValidationError :=
  if a = [] then
    some ⟨"INVALID_ACTION_NUMBER", "Invalid action ID: must be a string."⟩
  else if !actionNumFormat a then
    some ⟨"INVALID_ACTION_NUMBER_FORMAT", "Invalid action ID format: must be X.YY (e.g., 1.01)."⟩
  else none

/-- `RoadmapValidator.validateTitle`. -/
def validateTitle (title : Str) (ft : FieldKind) : Option ValidationError :=
  if title = [] then
    some ⟨"INVALID_TITLE", "Invalid " ++ fieldName ft ++ " title. Must be non-empty string."⟩
  else if jsTrim title = [] then
    some ⟨"EMPTY_TITLE", fieldNameCap ft ++ " title cannot be empty."⟩
  else none

/-- `RoadmapValidator.validateDescription`. -/
def validateDescription (d : Str) (ft : FieldKind) : Option ValidationError :=
  if d = [] then
    some ⟨"INVALID_DESCRIPTION", "Invalid " ++ fieldName ft ++ " description. Must be non-empty string."⟩
  else if jsTrim d = [] then
    some ⟨"EMPTY_DESCRIPTION", fieldNameCap ft ++ " description cannot be empty."⟩
  else none

/-- The loop of `RoadmapValidator.validateActionSequence`, threading the
per-feature `seenNumbers` set and the cross-feature `globalSeenNumbers`
set (sets are modelled as lists queried with `contains`).  A malformed
action number is reported and skips the remaining checks for that
action (the `continue`), leaving the seen-sets untouched. -/
def actionSeqLoop (featureNumber : Str) :
    List Str → List Str → List Str → List ValidationError × List Str
  | [], _, global => ([], global)
  | a :: t, seen, global =>
    match validateActionNumber a with
    | some e =>
      let (es, g) := actionSeqLoop featureNumber t seen global
      (e :: es, g)
    | none =>
      let mism :=
        if featureNumber ≠ [] ∧ (splitChar '.' a).headD [] ≠ featureNumber then
          [⟨"ACTION_FEATURE_MISMATCH",
            "Action \"" ++ String.mk a ++ "\" does not belong to feature \"" ++ String.mk featureNumber ++ "\"."⟩]
        else ([] : List ValidationError)
      let dup :=
        if seen.contains a then
          [⟨"DUPLICATE_ACTION_NUMBER", "Duplicate action ID \"" ++ String.mk a ++ "\"."⟩]
        else ([] : List ValidationError)
      let gdup :=
        if global.contains a then
          [⟨"DUPLICATE_ACTION_NUMBER_GLOBAL",
            "Duplicate action ID \"" ++ String.mk a ++ "\" (exists in another feature)."⟩]
        else ([] : List ValidationError)
      let (es, g) := actionSeqLoop featureNumber t (a :: seen) (a :: global)
      (mism ++ dup ++ gdup ++ es, g)

/-- `RoadmapValidator.validateActionSequence` (action numbers only; the
source duck-types on objects carrying a `number` field). -/
def validateActionSequence (actions : List Str) (global : List Str) (featureNumber : Str) :
    List ValidationError × List Str :=
  actionSeqLoop featureNumber actions [] global

/-- The loop of `RoadmapValidator.validateFeatureSequence` over
`(featureNumber, actionNumbers)` pairs, threading the seen-feature and
global seen-action sets. -/
def featureSeqLoop : List (Str × List Str) → List Str → List Str → List ValidationError
  | [], _, _ => []
  | (n, as) :: t, seenF, seenA =>
    match validateFeatureNumber n with
    | some e => e :: featureSeqLoop t seenF seenA
    | none =>
      let dup :=
        if seenF.contains n then
          [⟨"DUPLICATE_FEATURE_NUMBER", "Duplicate feature ID \"" ++ String.mk n ++ "\"."⟩]
        else ([] : List ValidationError)
      let (aErrs, seenA2) := validateActionSequence as seenA n
      dup ++ aErrs ++ featureSeqLoop t (n :: seenF) seenA2

/-- `RoadmapValidator.validateFeatureSequence` (on the `number` fields the
source actually reads). -/
def validateFeatureSequence (features : List (Str × List Str)) : List ValidationError :=
  featureSeqLoop features [] []

/-- `RoadmapValidator.validateStatusProgression` of `src/validators.ts`:
an unknown requested status is rejected first; then `cancelled` is a
terminal state. -/
def validateStatusProgression (currentStatus newStatus : String) : Option ValidationError :=
  if !(["pending", "in_progress", "completed", "cancelled"].contains newStatus) then
    some ⟨"INVALID_STATUS",
      "Invalid status \"" ++ newStatus ++ "\". Valid: pending, in_progress, completed, cancelled"⟩
  else if currentStatus = "cancelled" then
    some ⟨"INVALID_STATUS_TRANSITION",
      "Cannot change status of cancelled action. Create a new action instead."⟩
  else none

/-! ## JSON (model of the host `JSON.parse` / `JSON.stringify` used by
`src/storage.ts`; these are platform builtins, not repository code) -/

/-- JSON values. -/
inductive Json where
  | null
  | bool (b : Bool)
  | num (q : ℚ)
  | jstr (s : Str)
  | arr (elems : List Json)
  | obj (fields : List (Str × Json))
deriving Repr

/-- JSON insignificant whitespace. -/
def jsonWsChar (c : Char) : Bool := c = ' ' || c = '\t' || c = '\n' || c = '\r'

/-- Skip insignificant whitespace. -/
def skipJsonWs (s : Str) : Str := s.dropWhile jsonWsChar

/-- Hexadecimal digit value. -/
def hexVal (c : Char) : Option Nat :=
  if '0' ≤ c ∧ c ≤ '9' then some (c.val.toNat - 48)
  else if 'a' ≤ c ∧ c ≤ 'f' then some (c.val.toNat - 87)
  else if 'A' ≤ c ∧ c ≤ 'F' then some (c.val.toNat - 55)
  else none

/-- Parse the body of a JSON string literal (opening quote already
consumed); returns the decoded characters and the rest of the input. -/
def parseJsonStrBody : Str → Option (Str × Str)
  | [] => none
  | '"' :: r => some ([], r)
  | '\\' :: e :: r =>
    match e with
    | '"' => (parseJsonStrBody r).map fun (cs, r2) => ('"' :: cs, r2)
    | '\\' => (parseJsonStrBody r).map fun (cs, r2) => ('\\' :: cs, r2)
    | '/' => (parseJsonStrBody r).map fun (cs, r2) => ('/' :: cs, r2)
    | 'b' => (parseJsonStrBody r).map fun (cs, r2) => (Char.ofNat 8 :: cs, r2)
    | 'f' => (parseJsonStrBody r).map fun (cs, r2) => (Char.ofNat 12 :: cs, r2)
    | 'n' => (parseJsonStrBody r).map fun (cs, r2) => ('\n' :: cs, r2)
    | 'r' => (parseJsonStrBody r).map fun (cs, r2) => ('\r' :: cs, r2)
    | 't' => (parseJsonStrBody r).map fun (cs, r2) => ('\t' :: cs, r2)
    | 'u' =>
      match r with
      | h1 :: h2 :: h3 :: h4 :: r2 =>
        match hexVal h1, hexVal h2, hexVal h3, hexVal h4 with
        | some a, some b, some c, some d =>
          let n := ((a * 16 + b) * 16 + c) * 16 + d
          (parseJsonStrBody r2).map fun (cs, r3) => (Char.ofNat n :: cs, r3)
        | _, _, _, _ => none
      | _ => none
    | _ => none
  | c :: r =>
    if c.val < 0x20 then none
    else (parseJsonStrBody r).map fun (cs, r2) => (c :: cs, r2)

/-- Parse a JSON number (grammar `-? int frac? exp?`). -/
def parseJsonNum (s : Str) : Option (Json × Str) :=
  let (neg, r) := match s with | '-' :: t => (true, t) | _ => (false, s)
  let ds := r.takeWhile isDig
  if ds = [] then none
  else if 2 ≤ ds.length ∧ ds.head? = some '0' then none
  else
    let r1 := r.drop ds.length
    let (fds, r2) :=
      match r1 with
      | '.' :: t =>
        let f := t.takeWhile isDig
        (f, t.drop f.length)
      | _ => ([], r1)
    if r1.head? = some '.' ∧ fds = [] then none
    else
      let (expOk, expNeg, eds, r3) :=
        match r2 with
        | 'e' :: t | 'E' :: t =>
          let (en, t2) := match t with | '-' :: u => (true, u) | '+' :: u => (false, u) | _ => (false, t)
          let e := t2.takeWhile isDig
          (!e.isEmpty, en, e, t2.drop e.length)
        | _ => (true, false, [], r2)
      if !expOk then none
      else
        let base : ℚ := (digitsVal ds : ℚ) + (digitsVal fds : ℚ) / ((10 : ℚ) ^ fds.length)
        let scaled : ℚ :=
          if expNeg then base / ((10 : ℚ) ^ digitsVal eds)
          else base * ((10 : ℚ) ^ digitsVal eds)
        some (.num (if neg then -scaled else scaled), r3)

mutual

/-- Parse one JSON value (fuel-indexed). -/
def parseJsonVal : Nat → Str → Option (Json × Str)
  | 0, _ => none
  | Nat.succ fuel, s =>
    match skipJsonWs s with
    | 'n' :: 'u' :: 'l' :: 'l' :: r => some (.null, r)
    | 't' :: 'r' :: 'u' :: 'e' :: r => some (.bool true, r)
    | 'f' :: 'a' :: 'l' :: 's' :: 'e' :: r => some (.bool false, r)
    | '"' :: r => (parseJsonStrBody r).map fun (cs, r2) => (.jstr cs, r2)
    | '[' :: r =>
      (match skipJsonWs r with
       | ']' :: r2 => some (.arr [], r2)
       | _ => (parseJsonArrItems fuel r).map fun (vs, r2) => (.arr vs, r2))
    | '{' :: r =>
      (match skipJsonWs r with
       | '}' :: r2 => some (.obj [], r2)
       | _ => (parseJsonObjItems fuel r).map fun (kvs, r2) => (.obj kvs, r2))
    | r => parseJsonNum r

/-- Parse the comma-separated items of a non-empty JSON array. -/
def parseJsonArrItems : Nat → Str → Option (List Json × Str)
  | 0, _ => none
  | Nat.succ fuel, s => do
    let (v, r) ← parseJsonVal fuel s
    match skipJsonWs r with
    | ',' :: r2 => (parseJsonArrItems fuel r2).map fun (vs, r3) => (v :: vs, r3)
    | ']' :: r2 => some ([v], r2)
    | _ => none

/-- Parse the comma-separated members of a non-empty JSON object. -/
def parseJsonObjItems : Nat → Str → Option (List (Str × Json) × Str)
  | 0, _ => none
  | Nat.succ fuel, s =>
    match skipJsonWs s with
    | '"' :: r => do
      let (k, r2) ← parseJsonStrBody r
      match skipJsonWs r2 with
      | ':' :: r3 => do
        let (v, r4) ← parseJsonVal fuel r3
        match skipJsonWs r4 with
        | ',' :: r5 => (parseJsonObjItems fuel r5).map fun (kvs, r6) => ((k, v) :: kvs, r6)
        | '}' :: r5 => some ([(k, v)], r5)
        | _ => none
      | _ => none
    | _ => none

end

/-- Model of `JSON.parse`: parse one value, then only whitespace may
remain. -/
def jsonParse (s : Str) : Option Json := do
  let (v, r) ← parseJsonVal (s.length + 1) s
  if skipJsonWs r = [] then some v else none

/-! ## Zod schema decoding (`Roadmap.parse` of `src/types.ts`) -/

/-- Object member lookup; `JSON.parse` keeps the last duplicate key, so the
last binding wins. -/
def objGet (kvs : List (Str × Json)) (k : Str) : Option Json :=
  (kvs.reverse.find? fun p => p.1 == k).map fun p => p.2

/-- Decode a JSON value as a string (Zod `z.string()`). -/
def decodeJStr : Json → Option Str
  | .jstr s => some s
  | _ => none

/-- Decode an `ActionStatus` (Zod `z.enum([...])`). -/
def decodeStatus (j : Json) : Option ActionStatus := do
  let s ← decodeJStr j
  if s = str ("pending") then some .pending
  else if s = str ("in_progress") then some .in_progress
  else if s = str ("completed") then some .completed
  else if s = str ("cancelled") then some .cancelled
  else none

/-- Decode an `Action` (Zod object schema; unknown keys are stripped). -/
def decodeAction : Json → Option Action
  | .obj kvs => do
    let n ← objGet kvs (str ("number")) >>= decodeJStr
    let d ← objGet kvs (str ("description")) >>= decodeJStr
    let st ← objGet kvs (str ("status")) >>= decodeStatus
    some ⟨n, d, st⟩
  | _ => none

/-- Decode a `Feature`. -/
def decodeFeature : Json → Option Feature
  | .obj kvs => do
    let n ← objGet kvs (str ("number")) >>= decodeJStr
    let t ← objGet kvs (str ("title")) >>= decodeJStr
    let d ← objGet kvs (str ("description")) >>= decodeJStr
    match objGet kvs (str ("actions")) with
    | some (.arr items) => do
      let as ← items.mapM decodeAction
      some ⟨n, t, d, as⟩
    | _ => none
  | _ => none

/-- Decode a `Roadmap` (the schema validation `RoadmapSchema.parse` applied
by `FileStorage.readFromDisk`). -/
def decodeRoadmap : Json → Option Roadmap
  | .obj kvs =>
    match objGet kvs (str ("features")) with
    | some (.arr items) => (items.mapM decodeFeature).map Roadmap.mk
    | _ => none
  | _ => none

/-! ## Storage facade (`src/storage.ts`) -/

/-- The canonical string form of an `ActionStatus`. -/
def statusStr : ActionStatus → Str
  | .pending => str ("pending")
  | .in_progress => str ("in_progress")
  | .completed => str ("completed")
  | .cancelled => str ("cancelled")

/-- Append a comma to the last line of a line block (for rendering JSON
array elements). -/
def addComma (ls : List Str) : List Str :=
  match ls.getLast? with
  | none => ls
  | some l => ls.dropLast ++ [l ++ [',']]

/-- Comma-separate the line blocks of JSON array elements. -/
def commaSep : List (List Str) → List Str
  | [] => []
  | [b] => b
  | b :: b2 :: bs => addComma b ++ commaSep (b2 :: bs)

/-- Lines of `JSON.stringify` (indent 2) for one action, at array depth 2. -/
def actionJsonLines (a : Action) : List Str :=
  [str ("        \x7b"),
   str ("          \"number\": ") ++ jsonStr a.number ++ [','],
   str ("          \"description\": ") ++ jsonStr a.description ++ [','],
   str ("          \"status\": ") ++ jsonStr (statusStr a.status),
   str ("        \x7d")]

/-- Lines of `JSON.stringify` (indent 2) for one feature. -/
def featureJsonLines (f : Feature) : List Str :=
  [str ("    \x7b"),
   str ("      \"number\": ") ++ jsonStr f.number ++ [','],
   str ("      \"title\": ") ++ jsonStr f.title ++ [','],
   str ("      \"description\": ") ++ jsonStr f.description ++ [',']] ++
  (if f.actions = [] then [str ("      \"actions\": []")]
   else [str ("      \"actions\": [")] ++ commaSep (f.actions.map actionJsonLines) ++ [str ("      ]")]) ++
  [str ("    \x7d")]

/-- Model of `JSON.stringify(roadmap, null, 2)` as used by
`FileStorage.write`/`update` (exact for the roadmap shape, which contains
only objects, arrays and strings). -/
def stringifyRoadmap (r : Roadmap) : Str :=
  if r.features = [] then str ("\x7b\n  \"features\": []\n\x7d")
  else
    joinNL ([str ("\x7b"), str ("  \"features\": [")] ++
            commaSep (r.features.map featureJsonLines) ++
            [str ("  ]"), str ("\x7d")])

/-- Distinguishable decode failures of `FileStorage.readFromDisk`: a
`SyntaxError` from `JSON.parse` is re-thrown as the invalid-JSON error, a
`ZodError` as the invalid-structure error. -/
inductive ReadErr where
  | formatError
  | schemaError
deriving DecidableEq, Repr

/-- `FileStorage.readFromDisk` (also `read`): `none` models a missing file
(the `ENOENT` branch returns `null`), and an empty or whitespace-only file
also yields `null`; otherwise the content must parse as JSON and validate
against the roadmap schema. -/
def readFromDisk (file : Option Str) : Except ReadErr (Option Roadmap) :=
  match file with
  | none => .ok none
  | some data =>
    if jsTrim data = [] then .ok none
    else
      match jsonParse data with
      | none => .error .formatError
      | some v =>
        match decodeRoadmap v with
        | none => .error .schemaError
        | some r => .ok (some r)

/-- On-disk state of one storage directory: the live `roadmap.json` content
and the archived content, if any. -/
structure StorageState where
  file : Option Str
  archived : Option Str
deriving Repr

/-- The `UpdateResult<T>` record returned by an update transform. -/
structure UpdateRes (T : Type) where
  roadmap : Roadmap
  buildResult : Option String → T
  archive : Bool := false

/-- Errors escaping `FileStorage.update`: a read/decode failure of the
current file, or a domain error thrown by the transform. -/
inductive UpdErr (E : Type) where
  | readErr (e : ReadErr)
  | domain (e : E)
deriving DecidableEq, Repr

/-- `FileStorage.update`: under the lock, read the current document, run
the transform, atomically write the new roadmap, optionally archive, and
always release the lock (the `finally` clause).  The returned `Bool` is
whether the lock is still held after the call. -/
def updateRun {E T : Type} (st : StorageState) (fn : Option Roadmap → Except E (UpdateRes T)) :
    Except (UpdErr E) T × StorageState × Bool :=
  match readFromDisk st.file with
  | .error e => (.error (.readErr e), st, false)
  | .ok cur =>
    match fn cur with
    | .error e => (.error (.domain e), st, false)
    | .ok out =>
      let data := stringifyRoadmap out.roadmap
      if out.archive then
        (.ok (out.buildResult (some "roadmap.archive.json")),
         ⟨none, some data⟩, false)
      else
        (.ok (out.buildResult none), ⟨some data, st.archived⟩, false)

/-! ## Create/merge tool (`src/tools/createroadmap.ts`) -/

/-- A proposed action in the tool input (its `status` is constrained to
`"pending"` by the tool argument schema). -/
structure InputAction where
  number : Str
  description : Str
deriving DecidableEq, Repr

/-- A proposed feature in the tool input. -/
structure InputFeature where
  number : Str
  title : Str
  description : Str
  actions : List InputAction
deriving DecidableEq, Repr

/-- The distinct throw sites of the create-roadmap tool.  The
`immutableViolation` message text is loaded from an external template
(`getErrorMessage("immutable_feature", ...)`, whose asset is not part of
the core sources); the constructor carries the parameters the source
passes to it. -/
inductive MergeError where
  | noFeatures
  | emptyFeature (n : Str)
  | validationErrors (errs : List ValidationError)
  | immutableViolation (id oldTitle oldDesc newTitle newDesc : Str)
  | mergeInvariant (n : Str)
  | postMergeInvalid (errs : List ValidationError)
deriving DecidableEq, Repr

/-- The title/description errors collected for one proposed feature in the
structural pass. -/
def collectFeatureErrs (f : InputFeature) : List ValidationError :=
  (validateTitle f.title .feature).toList ++
  (validateDescription f.description .feature).toList ++
  f.actions.filterMap fun a => validateTitle a.description .action

/-- The structural pass of the tool: a proposed feature with zero actions
throws immediately; title/description violations are collected. -/
def structuralPass : List InputFeature → Except MergeError (List ValidationError)
  | [] => .ok []
  | f :: t =>
    if f.actions = [] then .error (.emptyFeature f.number)
    else (structuralPass t).map fun es => collectFeatureErrs f ++ es

/-- The `(number, actionNumbers)` projection of proposed features fed to
`validateFeatureSequence`. -/
def inputSeqPairs (inputs : List InputFeature) : List (Str × List Str) :=
  inputs.map fun f => (f.number, f.actions.map fun a => a.number)

/-- The `(number, actionNumbers)` projection of stored features. -/
def featureSeqPairs (fs : List Feature) : List (Str × List Str) :=
  fs.map fun f => (f.number, f.actions.map fun a => a.number)

/-- The optional-sign prefix of a JS numeric literal: returns the
negativity flag and the rest. -/
def signSplit (r : Str) : Bool × Str :=
  match r with
  | '-' :: t => (true, t)
  | '+' :: t => (false, t)
  | _ => (false, r)

/-- The fraction digits after an optional `.`. -/
def fracDigits (r : Str) : Str :=
  match r with
  | '.' :: t => t.takeWhile isDig
  | _ => []

/-- Model of `parseInt` (base 10): skip leading whitespace, optional sign,
then the leading digit run; `none` models `NaN`. -/
def parseIntM (s : Str) : Option Int :=
  let p := signSplit (jsTrimStart s)
  let ds := p.2.takeWhile isDig
  if ds = [] then none
  else some ((if p.1 then -1 else 1) * (digitsVal ds : Int))

/-- Model of `parseFloat` on decimal literals: skip leading whitespace,
optional sign, digits with an optional fraction; `none` models `NaN`.
(Exponent suffixes are not modelled; the sort comparators below only ever
receive validated `\d+` / `\d+\.\d{2}` identifiers, on which this model
agrees exactly with `parseFloat`.) -/
def parseFloatM (s : Str) : Option ℚ :=
  let p := signSplit (jsTrimStart s)
  let ds := p.2.takeWhile isDig
  let fds := fracDigits (p.2.drop ds.length)
  if ds = [] ∧ fds = [] then none
  else
    let q : ℚ := (digitsVal ds : ℚ) + (digitsVal fds : ℚ) / ((10 : ℚ) ^ fds.length)
    some (if p.1 then -q else q)

/-- The action sort comparator `parseFloat(a.number) - parseFloat(b.number)`;
a `NaN` result is treated as zero by `Array.prototype.sort`. -/
def cmpActions (a b : Action) : Ordering :=
  match parseFloatM a.number, parseFloatM b.number with
  | some x, some y => compare x y
  | _, _ => .eq

/-- The feature sort comparator `parseInt(a.number) - parseInt(b.number)`. -/
def cmpFeatures (f g : Feature) : Ordering :=
  match parseIntM f.number, parseIntM g.number with
  | some x, some y => compare x y
  | _, _ => .eq

/-- Non-strict comparator order for actions. -/
def leA (a b : Action) : Bool := cmpActions a b != Ordering.gt

/-- Non-strict comparator order for features. -/
def leF (f g : Feature) : Bool := cmpFeatures f g != Ordering.gt

/-- Stable insertion: `x` is placed before the first element it does not
have to follow (matching the stable `Array.prototype.sort`). -/
def insertBy {α : Type} (le : α → α → Bool) (x : α) : List α → List α
  | [] => [x]
  | y :: ys => if le x y then x :: y :: ys else y :: insertBy le x ys

/-- Stable sort by a boolean comparator. -/
def sortByLe {α : Type} (le : α → α → Bool) : List α → List α
  | [] => []
  | x :: t => insertBy le x (sortByLe le t)

/-- `actions.sort(...)` of the merge loop. -/
def sortActions (l : List Action) : List Action := sortByLe leA l

/-- `roadmap.features.sort(...)` after the merge loop. -/
def sortFeatures (l : List Feature) : List Feature := sortByLe leF l

/-- The action merge of the existing-feature branch: an action number that
already exists is skipped silently; a new action is appended with its
proposed status and the list is re-sorted. -/
def mergeActions (existing : List Action) (inp : List InputAction) : List Action :=
  inp.foldl
    (fun acc a =>
      if acc.any (fun x => x.number == a.number) then acc
      else sortActions (acc ++ [⟨a.number, a.description, .pending⟩]))
    existing

/-- `roadmap.features.find(f => f.number === n)`. -/
def findFeature (fs : List Feature) (n : Str) : Option Feature :=
  fs.find? fun f => f.number == n

/-- In-place mutation of the feature object returned by `find`: the first
feature with the given number is replaced, everything else is unchanged. -/
def replaceFirstFeature : List Feature → Str → Feature → List Feature
  | [], _, _ => []
  | f :: t, n, nf => if f.number == n then nf :: t else f :: replaceFirstFeature t n nf

/-- One iteration of the merge loop over proposed features. -/
def mergeFeatureStep (fs : List Feature) (g : InputFeature) : Except MergeError (List Feature) :=
  match findFeature fs g.number with
  | some ex =>
    if ex.title ≠ g.title ∨ ex.description ≠ g.description then
      .error (.immutableViolation g.number ex.title ex.description g.title g.description)
    else
      .ok (replaceFirstFeature fs g.number { ex with actions := mergeActions ex.actions g.actions })
  | none =>
    .ok (fs ++ [⟨g.number, g.title, g.description,
                g.actions.map fun a => ⟨a.number, a.description, .pending⟩⟩])

/-- The merge loop over all proposed features. -/
def mergeLoop (fs : List Feature) (inputs : List InputFeature) : Except MergeError (List Feature) :=
  inputs.foldlM mergeFeatureStep fs

/-- The post-merge safety check: no feature may end up with zero actions. -/
def zeroActionCheck : List Feature → Option Str
  | [] => none
  | f :: t => if f.actions = [] then some f.number else zeroActionCheck t

/-- The human-readable summary string returned on success. -/
def mergeSummary (isUpdate : Bool) (fs : List Feature) : String :=
  let total := fs.foldl (fun acc f => acc + f.actions.length) 0
  (if isUpdate then "Updated" else "Created") ++ " roadmap with " ++
  toString fs.length ++ " features and " ++ toString total ++ " actions:\n" ++
  String.intercalate "\n"
    (fs.map fun f =>
      "  Feature " ++ String.mk f.number ++ ": " ++ String.mk f.title ++
      " (" ++ toString f.actions.length ++ " actions)")

/-- The transform the create-roadmap tool passes to `storage.update`:
structural and sequence validation of the proposed input, the append-only
merge, final sorting and full-tree re-validation. -/
def createRoadmapTransform (inputs : List InputFeature) (current : Option Roadmap) :
    Except MergeError (UpdateRes String) :=
  (structuralPass inputs).bind fun s =>
    if s ++ validateFeatureSequence (inputSeqPairs inputs) ≠ [] then
      .error (.validationErrors (s ++ validateFeatureSequence (inputSeqPairs inputs)))
    else
      (mergeLoop ((current.getD ⟨[]⟩).features) inputs).bind fun merged =>
        match zeroActionCheck (sortFeatures merged) with
        | some n => .error (.mergeInvariant n)
        | none =>
          if validateFeatureSequence (featureSeqPairs (sortFeatures merged)) ≠ [] then
            .error (.postMergeInvalid (validateFeatureSequence (featureSeqPairs (sortFeatures merged))))
          else
            .ok { roadmap := ⟨sortFeatures merged⟩,
                  buildResult := fun _ => mergeSummary current.isSome (sortFeatures merged) }

/-- The `execute` body of the create-roadmap tool: an empty proposal is
rejected before the storage update; otherwise the transform runs inside
`storage.update`. -/
def createRoadmapExecute (inputs : List InputFeature) (st : StorageState) :
    Except (UpdErr MergeError) String × StorageState × Bool :=
  if inputs = [] then (.error (.domain .noFeatures), st, false)
  else updateRun st (createRoadmapTransform inputs)

/-! ## Helper lemmas: character classes -/

theorem jsWs_of_isDig {c : Char} (h : isDig c = true) : jsWs c = false := by
  simp only [isDig, Bool.and_eq_true, decide_eq_true_eq] at h
  simp only [jsWs, Bool.or_eq_false_iff, beq_eq_false_iff_ne, ne_eq,
    Bool.and_eq_false_iff, decide_eq_false_iff_not]
  omega

theorem dotOk_of_isDig {c : Char} (h : isDig c = true) : dotOk c = true := by
  simp only [isDig, Bool.and_eq_true, decide_eq_true_eq] at h
  simp only [dotOk, lineTerm, Bool.not_eq_true', Bool.or_eq_false_iff,
    beq_eq_false_iff_ne, ne_eq]
  omega

theorem ne_of_isDig {c : Char} (h : isDig c = true) {d : Char}
    (hd : d.val.toNat < 48 ∨ 57 < d.val.toNat) : c ≠ d := by
  simp only [isDig, Bool.and_eq_true, decide_eq_true_eq] at h
  intro he
  subst he
  omega

/-! ## Helper lemmas: runs of characters -/

theorem takeWhile_append_all {p : Char → Bool} {xs : Str}
    (h : ∀ c ∈ xs, p c = true) {y : Char} (hy : p y = false) (ys : Str) :
    (xs ++ y :: ys).takeWhile p = xs := by
  induction xs with
  | nil => simp [List.takeWhile_cons, hy]
  | cons a t ih =>
    have ha : p a = true := h a (List.mem_cons_self a t)
    simp only [List.cons_append, List.takeWhile_cons, ha, if_true]
    rw [ih fun c hc => h c (List.mem_cons_of_mem a hc)]

theorem dropWhile_append_all {p : Char → Bool} {xs : Str}
    (h : ∀ c ∈ xs, p c = true) {y : Char} (hy : p y = false) (ys : Str) :
    (xs ++ y :: ys).dropWhile p = y :: ys := by
  induction xs with
  | nil => simp [List.dropWhile_cons, hy]
  | cons a t ih =>
    have ha : p a = true := h a (List.mem_cons_self a t)
    simp only [List.cons_append, List.dropWhile_cons, ha, if_true]
    exact ih fun c hc => h c (List.mem_cons_of_mem a hc)

theorem takeWhile_eq_nil_of_head {p : Char → Bool} {x : Char}
    (hx : p x = false) (xs : Str) : (x :: xs).takeWhile p = [] := by
  simp [List.takeWhile_cons, hx]

theorem dropWhile_eq_self_of_head {p : Char → Bool} {x : Char}
    (hx : p x = false) (xs : Str) : (x :: xs).dropWhile p = x :: xs := by
  simp [List.dropWhile_cons, hx]

theorem length_dropWhile_le (p : Char → Bool) (l : Str) :
    (l.dropWhile p).length ≤ l.length := by
  induction l with
  | nil => simp
  | cons a t ih =>
    by_cases h : p a
    · simp only [List.dropWhile_cons, h, if_true]
      exact le_trans ih (Nat.le_succ _)
    · simp [List.dropWhile_cons, h]

theorem dropWhile_eq_self_of_length {p : Char → Bool} {l : Str}
    (h : (l.dropWhile p).length = l.length) : l.dropWhile p = l := by
  cases l with
  | nil => simp
  | cons a t =>
    by_cases ha : p a
    · exfalso
      simp only [List.dropWhile_cons, ha, if_true] at h
      have := length_dropWhile_le p t
      simp only [List.length_cons] at h
      omega
    · simp [List.dropWhile_cons, ha]

/-! ## Helper lemmas: trimming -/

theorem jsTrim_cons_ws {c : Char} (hc : jsWs c = true) (l : Str) :
    jsTrim (c :: l) = jsTrim l := by
  simp [jsTrim, jsTrimStart, List.dropWhile_cons, hc]

theorem length_jsTrimEnd_le (l : Str) : (jsTrimEnd l).length ≤ l.length := by
  simpa [jsTrimEnd] using length_dropWhile_le jsWs l.reverse

theorem length_jsTrim_le (l : Str) : (jsTrim l).length ≤ l.length := by
  refine le_trans (length_jsTrimEnd_le _) ?_
  simpa [jsTrimStart] using length_dropWhile_le jsWs l

theorem jsTrim_eq_self_of_ends {l : Str}
    (h1 : ∀ c, l.head? = some c → jsWs c = false)
    (h2 : ∀ c, l.getLast? = some c → jsWs c = false) :
    jsTrim l = l := by
  cases l with
  | nil => rfl
  | cons a t =>
    have ha : jsWs a = false := h1 a rfl
    have hstart : jsTrimStart (a :: t) = a :: t := dropWhile_eq_self_of_head ha t
    have hrev : (a :: t).reverse.dropWhile jsWs = (a :: t).reverse := by
      cases hr : (a :: t).reverse with
      | nil => simp at hr
      | cons b u =>
        have hb : (a :: t).getLast? = some b := by
          rw [← List.head?_reverse, hr]
          rfl
        exact dropWhile_eq_self_of_head (h2 b hb) u
    show jsTrimEnd (jsTrimStart (a :: t)) = a :: t
    rw [hstart]
    show ((a :: t).reverse.dropWhile jsWs).reverse = a :: t
    rw [hrev, List.reverse_reverse]

theorem jsTrimStart_eq_self_of_trim {l : Str} (h : jsTrim l = l) :
    jsTrimStart l = l := by
  apply dropWhile_eq_self_of_length
  have h1 : (jsTrim l).length = l.length := by rw [h]
  have h2 := length_jsTrimEnd_le (jsTrimStart l)
  have h3 := length_dropWhile_le jsWs l
  simp only [jsTrim] at h1
  simp only [jsTrimStart] at *
  omega

theorem jsTrimEnd_eq_self_of_trim {l : Str} (h : jsTrim l = l) :
    jsTrimEnd l = l := by
  have hs := jsTrimStart_eq_self_of_trim h
  calc jsTrimEnd l = jsTrimEnd (jsTrimStart l) := by rw [hs]
  _ = l := h

theorem head_not_ws_of_trim {l : Str} (h : jsTrim l = l) :
    ∀ c, l.head? = some c → jsWs c = false := by
  intro c hc
  have hs := jsTrimStart_eq_self_of_trim h
  cases l with
  | nil => simp at hc
  | cons a t =>
    simp only [List.head?_cons, Option.some.injEq] at hc
    subst hc
    by_contra hws
    simp only [Bool.not_eq_false] at hws
    simp only [jsTrimStart, List.dropWhile_cons, hws, if_true] at hs
    have := length_dropWhile_le jsWs t
    have : (List.dropWhile jsWs t).length = t.length + 1 := by rw [hs]; simp
    omega

theorem last_not_ws_of_trim {l : Str} (h : jsTrim l = l) :
    ∀ c, l.getLast? = some c → jsWs c = false := by
  intro c hc
  have he := jsTrimEnd_eq_self_of_trim h
  rw [← List.head?_reverse] at hc
  cases hr : l.reverse with
  | nil => rw [hr] at hc; simp at hc
  | cons b u =>
    rw [hr] at hc
    simp only [List.head?_cons, Option.some.injEq] at hc
    subst hc
    by_contra hws
    simp only [Bool.not_eq_false] at hws
    have he2 : l.reverse.dropWhile jsWs = l.reverse := by
      have : (jsTrimEnd l).reverse = l.reverse := by rw [he]
      simpa [jsTrimEnd] using this
    rw [hr] at he2
    simp only [List.dropWhile_cons, hws, if_true] at he2
    have := length_dropWhile_le jsWs u
    have : (List.dropWhile jsWs u).length = u.length + 1 := by rw [he2]; simp
    omega

/-! ## Helper lemmas: split and join -/

theorem splitChar_not_mem {c : Char} {l : Str} (h : c ∉ l) :
    splitChar c l = [l] := by
  induction l with
  | nil => rfl
  | cons a t ih =>
    have hac : ¬ a = c := fun he => h (he ▸ List.mem_cons_self a t)
    have ht : c ∉ t := fun hm => h (List.mem_cons_of_mem a hm)
    simp [splitChar, hac, ih ht]

theorem splitChar_append_cons {c : Char} {l : Str} (h : c ∉ l) (rest : Str) :
    splitChar c (l ++ c :: rest) = l :: splitChar c rest := by
  induction l with
  | nil => simp [splitChar]
  | cons a t ih =>
    have hac : ¬ a = c := fun he => h (he ▸ List.mem_cons_self a t)
    have ht : c ∉ t := fun hm => h (List.mem_cons_of_mem a hm)
    have h2 := ih ht
    simp only [List.cons_append, splitChar, hac, if_false, List.append_eq, h2]

theorem splitChar_ne_nil (c : Char) (l : Str) : splitChar c l ≠ [] := by
  cases l with
  | nil => simp [splitChar]
  | cons a t =>
    simp only [splitChar]
    by_cases ha : a = c
    · simp [ha]
    · simp only [ha, if_false]
      cases hs : splitChar c t with
      | nil => simp
      | cons p ps => simp

theorem not_mem_of_splitChar {c : Char} {l : Str} :
    ∀ p ∈ splitChar c l, c ∉ p := by
  induction l with
  | nil =>
    intro p hp
    simp only [splitChar, List.mem_singleton] at hp
    subst hp
    simp
  | cons a t ih =>
    intro p hp
    simp only [splitChar] at hp
    by_cases ha : a = c
    · simp only [ha, if_true, List.mem_cons] at hp
      rcases hp with hp | hp
      · subst hp; simp
      · exact ih p hp
    · simp only [ha, if_false] at hp
      cases hs : splitChar c t with
      | nil => exact absurd hs (splitChar_ne_nil c t)
      | cons q qs =>
        rw [hs] at hp
        simp only [List.mem_cons] at hp
        rcases hp with hp | hp
        · subst hp
          intro hm
          rcases List.mem_cons.mp hm with he | hm2
          · exact ha he.symm
          · exact ih q (hs ▸ List.mem_cons_self q qs) hm2
        · exact ih p (hs ▸ List.mem_cons_of_mem q hp)

theorem joinNL_cons {l : Str} {L : List Str} (h : L ≠ []) :
    joinNL (l :: L) = l ++ '\n' :: joinNL L := by
  cases L with
  | nil => exact absurd rfl h
  | cons l2 ls => rfl

theorem joinNL_append {A B : List Str} (hA : A ≠ []) (hB : B ≠ []) :
    joinNL (A ++ B) = joinNL A ++ '\n' :: joinNL B := by
  induction A with
  | nil => exact absurd rfl hA
  | cons a t ih =>
    cases t with
    | nil =>
      cases B with
      | nil => exact absurd rfl hB
      | cons b bs => simp [joinNL]
    | cons a2 t2 =>
      have hne : a2 :: t2 ++ B ≠ [] := by simp
      rw [List.cons_append, joinNL_cons hne, ih (by simp)]
      conv_rhs => rw [joinNL_cons (by simp : (a2 :: t2 : List Str) ≠ [])]
      simp

theorem splitChar_joinNL {L : List Str} (hne : L ≠ [])
    (h : ∀ l ∈ L, '\n' ∉ l) : splitChar '\n' (joinNL L) = L := by
  induction L with
  | nil => exact absurd rfl hne
  | cons l t ih =>
    cases t with
    | nil => simp [joinNL, splitChar_not_mem (h l (List.mem_cons_self l []))]
    | cons l2 t2 =>
      rw [joinNL_cons (by simp)]
      rw [splitChar_append_cons (h l (List.mem_cons_self l _))]
      rw [ih (by simp) fun x hx => h x (List.mem_cons_of_mem l hx)]

theorem joinNL_flatten_middle (A : List Str) {M : List Str} (C : List Str)
    (hM : M ≠ []) : joinNL (A ++ joinNL M :: C) = joinNL (A ++ (M ++ C)) := by
  induction A with
  | nil =>
    cases C with
    | nil => simp [joinNL]
    | cons c cs =>
      simp only [List.nil_append]
      rw [joinNL_cons (by simp), joinNL_append hM (by simp)]
  | cons a t ih =>
    have h1 : t ++ joinNL M :: C ≠ [] := by simp
    have h2 : t ++ (M ++ C) ≠ [] := by
      cases M with
      | nil => exact absurd rfl hM
      | cons m ms => simp
    rw [List.cons_append, joinNL_cons h1, List.cons_append, joinNL_cons h2, ih]

theorem mem_joinNL_of_mem {L : List Str} {l : Str} (hl : l ∈ L) {c : Char}
    (hc : c ∈ l) : c ∈ joinNL L ∨ c = '\n' := by
  induction L with
  | nil => simp at hl
  | cons x t ih =>
    rcases List.mem_cons.mp hl with he | hm
    · subst he
      cases t with
      | nil => exact Or.inl hc
      | cons y u =>
        rw [joinNL_cons (by simp)]
        exact Or.inl (List.mem_append.mpr (Or.inl hc))
    · cases t with
      | nil => simp at hm
      | cons y u =>
        rcases ih hm with h | h
        · rw [joinNL_cons (by simp)]
          refine Or.inl (List.mem_append.mpr (Or.inr (List.mem_cons_of_mem _ h)))
        · exact Or.inr h

/-! ## Helper lemmas: locating the frontmatter end marker -/

theorem isPrefixOf_cons_cons {a b : Char} {as bs : Str} :
    (a :: as).isPrefixOf (b :: bs) = (a == b && as.isPrefixOf bs) := rfl

theorem fmEnd_not_prefix_of_ne {x : Char} (hx : x ≠ '\n') (s : Str) :
    fmEnd.isPrefixOf (x :: s) = false := by
  show (('\n' :: ['-', '-', '-', '\n']).isPrefixOf (x :: s)) = false
  rw [isPrefixOf_cons_cons]
  simp [beq_eq_false_iff_ne, Ne.symm hx]

theorem fmEnd_prefix_cons_nl (s : Str) :
    fmEnd.isPrefixOf ('\n' :: s) = (['-', '-', '-', '\n'] : Str).isPrefixOf s := by
  show (('\n' :: ['-', '-', '-', '\n']).isPrefixOf ('\n' :: s)) = _
  rw [isPrefixOf_cons_cons]
  simp

theorem dashes_not_prefix_of_ne {y : Char} (hy : y ≠ '-') (s : Str) :
    (['-', '-', '-', '\n'] : Str).isPrefixOf (y :: s) = false := by
  rw [isPrefixOf_cons_cons]
  simp [beq_eq_false_iff_ne, Ne.symm hy]

theorem findIdx_append {pat : Str} {F T : Str} (hocc : pat.isPrefixOf T = true)
    (hno : ∀ i, i < F.length → pat.isPrefixOf ((F ++ T).drop i) = false) :
    findIdx pat (F ++ T) = some F.length := by
  induction F with
  | nil =>
    cases T with
    | nil => simp [findIdx, hocc]
    | cons c t => simp [findIdx, hocc]
  | cons c F2 ih =>
    have h0 : pat.isPrefixOf (c :: (F2 ++ T)) = false := by
      have := hno 0 (by simp)
      simpa using this
    simp only [List.cons_append, findIdx, List.append_eq, h0, Bool.false_eq_true, if_false]
    rw [ih ?_]
    · simp
    · intro i hi
      have := hno (i + 1) (by simp; omega)
      simpa [List.drop_succ_cons] using this

theorem joinNL_eq_head_append (l : Str) (L : List Str) :
    ∃ s, joinNL (l :: L) = l ++ s := by
  cases L with
  | nil => exact ⟨[], by simp [joinNL]⟩
  | cons l2 ls => exact ⟨'\n' :: joinNL (l2 :: ls), rfl⟩

theorem no_marker_in_lines (L : List Str) (T : Str)
    (h1 : ∀ l ∈ L, '\n' ∉ l)
    (h2 : ∀ l ∈ L.tail, l ≠ [] ∧ l.head? ≠ some '-') :
    ∀ i, i < (joinNL L).length → fmEnd.isPrefixOf ((joinNL L ++ T).drop i) = false := by
  induction L generalizing T with
  | nil => intro i hi; simp [joinNL] at hi
  | cons l L2 ih =>
    intro i hi
    cases L2 with
    | nil =>
      simp only [joinNL] at hi ⊢
      rw [List.drop_append_of_le_length (le_of_lt hi)]
      cases hd : l.drop i with
      | nil =>
        exfalso
        have : (l.drop i).length = l.length - i := List.length_drop i l
        rw [hd] at this
        simp at this
        omega
      | cons x u =>
        have hx : x ∈ l := by
          have : x ∈ l.drop i := by rw [hd]; exact List.mem_cons_self x u
          exact List.drop_subset i l this
        exact (List.cons_append x u T) ▸ fmEnd_not_prefix_of_ne (fun he => h1 l (List.mem_cons_self l []) (he ▸ hx)) (u ++ T)
    | cons l2 L3 =>
      have hJ : joinNL (l :: l2 :: L3) = l ++ '\n' :: joinNL (l2 :: L3) := rfl
      rw [hJ] at hi ⊢
      simp only [List.length_append, List.length_cons] at hi
      rw [List.append_assoc]
      rcases Nat.lt_trichotomy i l.length with hlt | heq | hgt
      · rw [List.drop_append_of_le_length (le_of_lt hlt)]
        cases hd : l.drop i with
        | nil =>
          exfalso
          have : (l.drop i).length = l.length - i := List.length_drop i l
          rw [hd] at this
          simp at this
          omega
        | cons x u =>
          have hx : x ∈ l := by
            have : x ∈ l.drop i := by rw [hd]; exact List.mem_cons_self x u
            exact List.drop_subset i l this
          rw [List.cons_append]
          exact fmEnd_not_prefix_of_ne (fun he => h1 l (List.mem_cons_self l _) (he ▸ hx)) _
      · subst heq
        rw [List.drop_left, List.cons_append, fmEnd_prefix_cons_nl]
        obtain ⟨s, hs⟩ := joinNL_eq_head_append l2 L3
        rw [hs]
        obtain ⟨hl2ne, hl2head⟩ := h2 l2 (List.mem_cons_self l2 L3)
        cases l2 with
        | nil => exact absurd rfl hl2ne
        | cons y u =>
          have hy : y ≠ '-' := by
            intro he
            exact hl2head (by rw [he]; rfl)
          simp only [List.cons_append]
          exact dashes_not_prefix_of_ne hy _
      · obtain ⟨k, hk⟩ : ∃ k, i = l.length + (k + 1) := ⟨i - l.length - 1, by omega⟩
        subst hk
        rw [List.drop_append, List.cons_append, List.drop_succ_cons]
        have hk2 : k < (joinNL (l2 :: L3)).length := by omega
        have := ih T (fun x hx => h1 x (List.mem_cons_of_mem l hx))
          (fun x hx => h2 x (List.mem_cons_of_mem l2 hx)) k hk2
        simpa using this

/-! ## Helper lemmas: shape of the built document -/

/-- The frontmatter content lines emitted by `buildDocument`. -/
def fmLines (d : RoadmapDocument) : List Str :=
  (str ("feature: ") ++ jsonStr d.feature) :: str ("spec: |") :: specBlockLines d.spec

/-- The body lines emitted by `buildDocument` (after the closing `---`). -/
def bodyTail (d : RoadmapDocument) : List Str :=
  [] :: str ("## Task List") :: [] :: buildTaskListLines d.roadmap

theorem hexDigit_ne_nl {n : Nat} (hn : n < 16) : hexDigit n ≠ '\n' := by
  interval_cases n <;> decide

theorem nl_not_mem_jsonEscChar (c : Char) : '\n' ∉ jsonEscChar c := by
  unfold jsonEscChar
  split_ifs with h1 h2 h3 h4 h5 h6 h7 h8
  · decide
  · decide
  · decide
  · decide
  · decide
  · decide
  · decide
  · intro hm
    simp only [List.mem_cons, List.not_mem_nil, or_false] at hm
    rcases hm with h | h | h | h | h | h
    · exact absurd h (by decide)
    · exact absurd h (by decide)
    · exact absurd h (by decide)
    · exact absurd h (by decide)
    · exact hexDigit_ne_nl (show c.val.toNat / 16 < 16 by omega) h.symm
    · exact hexDigit_ne_nl (Nat.mod_lt _ (by norm_num)) h.symm
  · intro hm
    simp only [List.mem_cons, List.not_mem_nil, or_false] at hm
    exact h3 hm.symm

theorem jsonEscChar_ne_nil (c : Char) : jsonEscChar c ≠ [] := by
  unfold jsonEscChar
  split_ifs <;> simp

theorem nl_not_mem_jsonStr (f : Str) : '\n' ∉ jsonStr f := by
  intro hm
  rw [jsonStr] at hm
  rcases List.mem_cons.mp hm with h | hm2
  · exact absurd h (by decide)
  · rcases List.mem_append.mp hm2 with h | h
    · rcases List.mem_flatMap.mp h with ⟨a, -, ha⟩
      exact nl_not_mem_jsonEscChar a ha
    · rcases List.mem_cons.mp h with h2 | h2
      · exact absurd h2 (by decide)
      · simp at h2

theorem flatMap_jsonEscChar_ne_nil {f : Str} (h : f ≠ []) :
    f.flatMap jsonEscChar ≠ [] := by
  cases f with
  | nil => exact absurd rfl h
  | cons c t =>
    simp only [List.flatMap_cons, ne_eq, List.append_eq_nil]
    intro ⟨h1, _⟩
    exact jsonEscChar_ne_nil c h1

theorem specBlockLines_facts (sp : Str) :
    ∀ l ∈ specBlockLines sp, '\n' ∉ l ∧ l ≠ [] ∧ l.head? = some ' ' := by
  intro l hl
  simp only [specBlockLines, List.mem_map] at hl
  obtain ⟨x, hx, hlx⟩ := hl
  subst hlx
  refine ⟨?_, by simp, rfl⟩
  intro hm
  simp only [List.mem_cons] at hm
  rcases hm with h | h | hm
  · exact absurd h (by decide)
  · exact absurd h (by decide)
  · have hx2 : '\n' ∉ x := by
      simp only [specLinesOf] at hx
      by_cases he : jsTrimEnd sp = []
      · simp only [he, if_true, List.mem_singleton] at hx
        subst hx
        simp
      · simp only [he, if_false] at hx
        exact not_mem_of_splitChar x hx
    exact hx2 hm

theorem specBlockLines_ne_nil (sp : Str) : specBlockLines sp ≠ [] := by
  simp only [specBlockLines, specLinesOf]
  by_cases he : jsTrimEnd sp = []
  · simp [he]
  · simp only [he, if_false, ne_eq, List.map_eq_nil_iff]
    exact splitChar_ne_nil '\n' (jsTrimEnd sp)

theorem fmLines_nl_free (d : RoadmapDocument) : ∀ l ∈ fmLines d, '\n' ∉ l := by
  intro l hl
  rcases List.mem_cons.mp hl with he | hl2
  · subst he
    intro hm
    rcases List.mem_append.mp hm with h | h
    · have : ('\n' : Char) ∈ str ("feature: ") := h
      simp [str] at this
    · exact nl_not_mem_jsonStr _ h
  · rcases List.mem_cons.mp hl2 with he | hl3
    · subst he
      decide
    · exact (specBlockLines_facts d.spec l hl3).1

theorem fmLines_tail_ok (d : RoadmapDocument) :
    ∀ l ∈ (fmLines d).tail, l ≠ [] ∧ l.head? ≠ some '-' := by
  intro l hl
  simp only [fmLines, List.tail_cons] at hl
  rcases List.mem_cons.mp hl with he | hl2
  · subst he
    constructor
    · decide
    · decide
  · obtain ⟨_, hne, hhead⟩ := specBlockLines_facts d.spec l hl2
    exact ⟨hne, by rw [hhead]; decide⟩

theorem isPrefixOf_append_self (l1 l2 : Str) : l1.isPrefixOf (l1 ++ l2) = true := by
  rw [List.isPrefixOf_iff_prefix]
  exact List.prefix_append l1 l2

theorem buildDocument_decomp (d : RoadmapDocument)
    (hbody : buildTaskListLines d.roadmap ≠ []) :
    buildDocument d =
      str ("---\n") ++ (joinNL (fmLines d) ++ (fmEnd ++ joinNL (bodyTail d))) := by
  have hSB : specBlockLines d.spec ≠ [] := specBlockLines_ne_nil d.spec
  have hL : buildDocument d =
      str ("---") ++ '\n' :: ((str ("feature: ") ++ jsonStr d.feature) ++
        '\n' :: (str ("spec: |") ++ '\n' :: (joinNL (specBlockLines d.spec) ++
        '\n' :: (str ("---") ++ '\n' :: (([] : Str) ++
        '\n' :: (str ("## Task List") ++ '\n' :: (([] : Str) ++
        '\n' :: joinNL (buildTaskListLines d.roadmap)))))))) := rfl
  rw [hL]
  show _ = str ("---\n") ++ (joinNL ((str ("feature: ") ++ jsonStr d.feature) ::
      str ("spec: |") :: specBlockLines d.spec) ++
      (fmEnd ++ joinNL (([] : Str) :: str ("## Task List") :: ([] : Str) ::
        buildTaskListLines d.roadmap)))
  rw [joinNL_cons (show str ("spec: |") :: specBlockLines d.spec ≠ [] by simp),
      joinNL_cons hSB,
      joinNL_cons (show str ("## Task List") :: ([] : Str) :: buildTaskListLines d.roadmap ≠ [] by simp),
      joinNL_cons (show ([] : Str) :: buildTaskListLines d.roadmap ≠ [] by simp),
      joinNL_cons hbody]
  have e1 : str ("---\n") = str ("---") ++ ['\n'] := rfl
  have e2 : fmEnd = '\n' :: (str ("---") ++ ['\n']) := rfl
  rw [e1, e2]
  simp [List.append_assoc]

theorem splitFrontmatter_build (d : RoadmapDocument)
    (hbody : buildTaskListLines d.roadmap ≠ []) :
    splitFrontmatter (buildDocument d) = .ok (joinNL (fmLines d), joinNL (bodyTail d)) := by
  rw [buildDocument_decomp d hbody]
  have hpre : (str ("---\n")).isPrefixOf
      (str ("---\n") ++ (joinNL (fmLines d) ++ (fmEnd ++ joinNL (bodyTail d)))) = true :=
    isPrefixOf_append_self _ _
  rw [splitFrontmatter, hpre, if_pos rfl]
  have hdrop4 : (str ("---\n") ++ (joinNL (fmLines d) ++ (fmEnd ++ joinNL (bodyTail d)))).drop 4 =
      joinNL (fmLines d) ++ (fmEnd ++ joinNL (bodyTail d)) := by
    have h4 : (4 : Nat) = (str ("---\n")).length := rfl
    rw [h4, List.drop_left]
  rw [hdrop4]
  have hocc : fmEnd.isPrefixOf (fmEnd ++ joinNL (bodyTail d)) = true :=
    isPrefixOf_append_self _ _
  have hfind : findIdx fmEnd (joinNL (fmLines d) ++ (fmEnd ++ joinNL (bodyTail d))) =
      some (joinNL (fmLines d)).length :=
    findIdx_append hocc (no_marker_in_lines (fmLines d) (fmEnd ++ joinNL (bodyTail d))
      (fmLines_nl_free d) (fmLines_tail_ok d))
  have htake : (joinNL (fmLines d) ++ (fmEnd ++ joinNL (bodyTail d))).take (joinNL (fmLines d)).length =
      joinNL (fmLines d) := List.take_left _ _
  have hdrop : (joinNL (fmLines d) ++ (fmEnd ++ joinNL (bodyTail d))).drop ((joinNL (fmLines d)).length + 5) =
      joinNL (bodyTail d) := by
    have h5 : (joinNL (fmLines d)).length + 5 = (joinNL (fmLines d) ++ fmEnd).length := by
      simp [fmEnd]
    rw [h5, ← List.append_assoc, List.drop_left]
  simp only [hfind, htake, hdrop]

/-! ## Helper lemmas: parsing the built frontmatter -/

theorem exbind_ok {ε α β : Type} (a : α) (f : α → Except ε β) :
    (Except.ok a : Except ε α) >>= f = f a := rfl

theorem exbind_err {ε α β : Type} (e : ε) (f : α → Except ε β) :
    (Except.error e : Except ε α) >>= f = .error e := rfl

theorem exbindd_ok {ε α β : Type} (a : α) (f : α → Except ε β) :
    (Except.ok a : Except ε α).bind f = f a := rfl

theorem exbindd_err {ε α β : Type} (e : ε) (f : α → Except ε β) :
    (Except.error e : Except ε α).bind f = .error e := rfl

theorem fmScan_space_lines {ls : List Str} (h : ∀ l ∈ ls, l.head? = some ' ') :
    ∀ i feat sp, fmScan ls i feat sp = .ok (feat, sp) := by
  induction ls with
  | nil => intro i feat sp; rfl
  | cons l t ih =>
    intro i feat sp
    have hl : l.head? = some ' ' := h l (List.mem_cons_self l t)
    obtain ⟨u, hu⟩ : ∃ u, l = ' ' :: u := by
      cases l with
      | nil => simp at hl
      | cons c cs => simp only [List.head?_cons, Option.some.injEq] at hl; exact ⟨cs, by rw [hl]⟩
    subst hu
    have hf : (str ("feature:")).isPrefixOf (' ' :: u) = false := by
      rw [show str ("feature:") = 'f' :: str ("eature:") from rfl, isPrefixOf_cons_cons]
      simp
    have hs : (str ("spec:")).isPrefixOf (' ' :: u) = false := by
      rw [show str ("spec:") = 's' :: str ("pec:") from rfl, isPrefixOf_cons_cons]
      simp
    show fmScan ((' ' :: u) :: t) i feat sp = _
    rw [fmScan]
    simp only [hf, hs, Bool.false_eq_true, if_false]
    exact ih (fun x hx => h x (List.mem_cons_of_mem _ hx)) (i + 1) feat sp

theorem parseScalar_quoted (f : Str) :
    parseScalar (' ' :: jsonStr f) = f.flatMap jsonEscChar := by
  have h1 : jsTrim (' ' :: jsonStr f) = jsonStr f := by
    rw [jsTrim_cons_ws (by decide)]
    apply jsTrim_eq_self_of_ends
    · intro c hc
      rw [jsonStr, List.cons_append, List.head?_cons] at hc
      injection hc with h
      subst h
      decide
    · intro c hc
      have : ('"' :: f.flatMap jsonEscChar ++ ['"']).getLast? = some '"' := by
        rw [show ('"' :: f.flatMap jsonEscChar ++ ['"'] : Str) = ('"' :: f.flatMap jsonEscChar) ++ ['"'] from rfl]
        exact List.getLast?_concat _
      rw [jsonStr] at hc
      rw [this] at hc
      simp only [Option.some.injEq] at hc
      subst hc
      decide
  rw [parseScalar]
  simp only [h1]
  have hhead : (jsonStr f).head? = some '"' := rfl
  have hlast : (jsonStr f).getLast? = some '"' := by
    rw [show jsonStr f = ('"' :: f.flatMap jsonEscChar) ++ ['"'] from rfl]
    exact List.getLast?_concat _
  rw [if_pos ⟨hhead, hlast⟩]
  show (('"' :: (f.flatMap jsonEscChar ++ ['"'])).drop 1).dropLast = _
  rw [List.drop_one, List.tail_cons, List.dropLast_concat]

theorem fmScan_build (d : RoadmapDocument) :
    fmScan (fmLines d) 0 none none =
      .ok (some (d.feature.flatMap jsonEscChar), some 1) := by
  have e1 : str ("feature: ") ++ jsonStr d.feature =
      str ("feature:") ++ (' ' :: jsonStr d.feature) := rfl
  have hpre1 : (str ("feature:")).isPrefixOf (str ("feature: ") ++ jsonStr d.feature) = true := by
    rw [e1]; exact isPrefixOf_append_self _ _
  have hnspec1 : (str ("spec:")).isPrefixOf (str ("feature: ") ++ jsonStr d.feature) = false := by
    rw [show str ("feature: ") ++ jsonStr d.feature = 'f' :: (str ("eature: ") ++ jsonStr d.feature) from rfl,
      show str ("spec:") = 's' :: str ("pec:") from rfl, isPrefixOf_cons_cons]
    simp
  have hdrop8 : (str ("feature: ") ++ jsonStr d.feature).drop 8 = ' ' :: jsonStr d.feature := by
    rw [e1, show (8 : Nat) = (str ("feature:")).length from rfl, List.drop_left]
  show fmScan ((str ("feature: ") ++ jsonStr d.feature) :: str ("spec: |") :: specBlockLines d.spec) 0 none none = _
  rw [fmScan]
  simp only [hpre1, hnspec1, if_true, Bool.false_eq_true, if_false]
  rw [hdrop8, parseScalar_quoted]
  rw [fmScan]
  have hpre2 : (str ("feature:")).isPrefixOf (str ("spec: |")) = false := by decide
  have hspec2 : (str ("spec:")).isPrefixOf (str ("spec: |")) = true := by decide
  have htrim2 : jsTrim (str ("spec: |")) = str ("spec: |") := by decide
  simp only [hpre2, hspec2, htrim2, Bool.false_eq_true, if_false, if_true]
  exact fmScan_space_lines (fun l hl => (specBlockLines_facts d.spec l hl).2.2) 2 _ _

theorem parseFrontmatter_build (d : RoadmapDocument) (hne : d.feature ≠ []) :
    ∃ sp, parseFrontmatter (joinNL (fmLines d)) =
      .ok (d.feature.flatMap jsonEscChar, sp) := by
  have hsplit : splitChar '\n' (joinNL (fmLines d)) = fmLines d :=
    splitChar_joinNL (by simp [fmLines]) (fmLines_nl_free d)
  refine ⟨normalizeSpec ((fmLines d).drop 2), ?_⟩
  rw [parseFrontmatter]
  simp only [hsplit, fmScan_build d, exbind_ok]
  have hflat : d.feature.flatMap jsonEscChar ≠ [] := flatMap_jsonEscChar_ne_nil hne
  rw [if_neg hflat]
  rfl

/-! ## Helper lemmas: the task-list matchers on built lines -/

theorem getLast?_append_right {X t : Str} (h : t ≠ []) :
    (X ++ t).getLast? = t.getLast? := by
  induction X with
  | nil => rfl
  | cons a u ih =>
    rw [List.cons_append]
    rw [List.getLast?_cons]
    rw [ih]
    cases t with
    | nil => exact absurd rfl h
    | cons b v =>
      cases hv : (b :: v).getLast? with
      | none => simp at hv
      | some c => simp

theorem tailCapture_space {t : Str} (hne : t ≠ [])
    (hhead : ∀ c, t.head? = some c → jsWs c = false)
    (hdot : ∀ c ∈ t, dotOk c = true) :
    tailCapture (' ' :: t) = some t := by
  obtain ⟨c, u, rfl⟩ : ∃ c u, t = c :: u := by
    cases t with
    | nil => exact absurd rfl hne
    | cons c u => exact ⟨c, u, rfl⟩
  have hc : jsWs c = false := hhead c rfl
  have htw : (' ' :: c :: u).takeWhile jsWs = [' '] := by
    rw [show (' ' :: c :: u : Str) = [' '] ++ c :: u from rfl]
    exact takeWhile_append_all (by decide) hc u
  rw [tailCapture]
  simp only [htw, List.length_singleton, List.length_cons, List.length_nil,
    List.drop_succ_cons, List.drop_zero]
  rw [if_pos (by omega)]
  rw [if_pos (List.all_eq_true.mpr hdot)]

theorem tailCapture1_space {t : Str} (hne : t ≠ [])
    (hhead : ∀ c, t.head? = some c → jsWs c = false)
    (hdot : ∀ c ∈ t, dotOk c = true) :
    tailCapture1 (' ' :: t) = some t := by
  obtain ⟨c, u, rfl⟩ : ∃ c u, t = c :: u := by
    cases t with
    | nil => exact absurd rfl hne
    | cons c u => exact ⟨c, u, rfl⟩
  have hc : jsWs c = false := hhead c rfl
  have htw : (' ' :: c :: u).takeWhile jsWs = [' '] := by
    rw [show (' ' :: c :: u : Str) = [' '] ++ c :: u from rfl]
    exact takeWhile_append_all (by decide) hc u
  rw [tailCapture1]
  simp only [htw, List.length_singleton, List.length_cons, List.length_nil,
    List.drop_succ_cons, List.drop_zero]
  rw [if_neg (by omega), if_pos (by omega)]
  rw [if_pos (List.all_eq_true.mpr hdot)]

theorem featureMatch_header {n t : Str} (hn : n ≠ [])
    (hdig : ∀ c ∈ n, isDig c = true) (ht : t ≠ [])
    (hthead : ∀ c, t.head? = some c → jsWs c = false)
    (hdot : ∀ c ∈ t, dotOk c = true) :
    featureMatch (str ("### Feature ") ++ (n ++ ':' :: ' ' :: t)) = some (n, t) := by
  obtain ⟨d0, n', rfl⟩ : ∃ d0 n', n = d0 :: n' := by
    cases n with
    | nil => exact absurd rfl hn
    | cons d0 n' => exact ⟨d0, n', rfl⟩
  have hd0 : isDig d0 = true := hdig d0 (List.mem_cons_self _ _)
  have hhs : (str ("### Feature ") ++ ((d0 :: n') ++ ':' :: ' ' :: t)).takeWhile (· = '#') = ['#', '#', '#'] := by
    rw [show str ("### Feature ") ++ ((d0 :: n') ++ ':' :: ' ' :: t) =
      ['#', '#', '#'] ++ ' ' :: (str ("Feature ") ++ ((d0 :: n') ++ ':' :: ' ' :: t)) from rfl]
    exact takeWhile_append_all (by decide) (by decide) _
  have hdw : (' ' :: (str ("Feature ") ++ ((d0 :: n') ++ ':' :: ' ' :: t))).dropWhile jsWs =
      'F' :: (str ("eature ") ++ ((d0 :: n') ++ ':' :: ' ' :: t)) := by
    rw [show (' ' :: (str ("Feature ") ++ ((d0 :: n') ++ ':' :: ' ' :: t)) : Str) =
      [' '] ++ 'F' :: (str ("eature ") ++ ((d0 :: n') ++ ':' :: ' ' :: t)) from rfl]
    exact dropWhile_append_all (by decide) (by decide) _
  have hpre : (str ("Feature")).isPrefixOf
      ('F' :: (str ("eature ") ++ ((d0 :: n') ++ ':' :: ' ' :: t))) = true := by
    rw [show ('F' :: (str ("eature ") ++ ((d0 :: n') ++ ':' :: ' ' :: t)) : Str) =
      str ("Feature") ++ (' ' :: ((d0 :: n') ++ ':' :: ' ' :: t)) from rfl]
    exact isPrefixOf_append_self _ _
  have hws1 : (' ' :: ((d0 :: n') ++ ':' :: ' ' :: t)).takeWhile jsWs = [' '] := by
    rw [show (' ' :: ((d0 :: n') ++ ':' :: ' ' :: t) : Str) =
      [' '] ++ d0 :: (n' ++ ':' :: ' ' :: t) from rfl]
    exact takeWhile_append_all (by decide) (jsWs_of_isDig hd0) _
  have hds : ((d0 :: n') ++ ':' :: ' ' :: t).takeWhile isDig = d0 :: n' := by
    exact takeWhile_append_all (fun c hc => hdig c hc) (by decide) _
  have hdsdrop : ((d0 :: n') ++ ':' :: ' ' :: t).drop (d0 :: n').length = ':' :: ' ' :: t :=
    List.drop_left _ _
  have hdw2 : (':' :: ' ' :: t).dropWhile jsWs = ':' :: ' ' :: t :=
    dropWhile_eq_self_of_head (by decide) _
  rw [featureMatch]
  simp only [hhs]
  rw [if_neg (by decide)]
  have hdrop3 : (str ("### Feature ") ++ ((d0 :: n') ++ ':' :: ' ' :: t)).drop (['#', '#', '#'] : Str).length =
      ' ' :: (str ("Feature ") ++ ((d0 :: n') ++ ':' :: ' ' :: t)) := rfl
  simp only [hdrop3, hdw, hpre, if_true]
  have hdrop7 : ('F' :: (str ("eature ") ++ ((d0 :: n') ++ ':' :: ' ' :: t))).drop 7 =
      ' ' :: ((d0 :: n') ++ ':' :: ' ' :: t) := by
    rw [show ('F' :: (str ("eature ") ++ ((d0 :: n') ++ ':' :: ' ' :: t)) : Str) =
      str ("Feature") ++ (' ' :: ((d0 :: n') ++ ':' :: ' ' :: t)) from rfl,
      show (7 : Nat) = (str ("Feature")).length from rfl, List.drop_left]
  simp only [hdrop7, hws1]
  rw [if_neg (by decide)]
  have hdrop1 : (' ' :: ((d0 :: n') ++ ':' :: ' ' :: t)).drop ([' '] : Str).length =
      (d0 :: n') ++ ':' :: ' ' :: t := rfl
  simp only [hdrop1, hds]
  rw [if_neg (by simp)]
  simp only [hdsdrop, hdw2]
  rw [tailCapture_space ht hthead hdot]
  rfl

theorem descMatch_line {t : Str} (ht : t ≠ [])
    (hthead : ∀ c, t.head? = some c → jsWs c = false)
    (hdot : ∀ c ∈ t, dotOk c = true) :
    descMatch (str ("Description: ") ++ t) = some t := by
  have hpre : (str ("Description:")).isPrefixOf (str ("Description: ") ++ t) = true := by
    rw [show str ("Description: ") ++ t = str ("Description:") ++ (' ' :: t) from rfl]
    exact isPrefixOf_append_self _ _
  have hdrop : (str ("Description: ") ++ t).drop 12 = ' ' :: t := by
    rw [show str ("Description: ") ++ t = str ("Description:") ++ (' ' :: t) from rfl,
      show (12 : Nat) = (str ("Description:")).length from rfl, List.drop_left]
  rw [descMatch, hpre, if_pos rfl, hdrop]
  exact tailCapture_space ht hthead hdot

theorem featureMatch_eq_none {l : Str} (hc : l.head? ≠ some '#') :
    featureMatch l = none := by
  cases l with
  | nil => rfl
  | cons c rest =>
    have hcc : c ≠ '#' := fun he => hc (by rw [he]; rfl)
    rw [featureMatch]
    have h2 : (decide (c = '#')) = false := decide_eq_false hcc
    simp only [List.takeWhile_cons, h2, Bool.false_eq_true, if_false, if_pos rfl]
    rfl

theorem descMatch_eq_none {l : Str} (hc : l.head? ≠ some 'D') :
    descMatch l = none := by
  cases l with
  | nil => rfl
  | cons c rest =>
    have hcc : c ≠ 'D' := fun he => hc (by rw [he]; rfl)
    rw [descMatch]
    rw [show str ("Description:") = 'D' :: str ("escription:") from rfl,
      isPrefixOf_cons_cons]
    have hb : ('D' == c) = false := by
      simp [beq_eq_false_iff_ne, Ne.symm hcc]
    simp [hb]

/-- The status glyph written inside the checkbox by `renderAction`. -/
def statusGlyph : ActionStatus → Char
  | .pending => ' '
  | .completed => 'x'
  | .in_progress => '~'
  | .cancelled => '-'

theorem renderAction_eq (s : ActionStatus) :
    renderAction s = '-' :: ' ' :: '[' :: statusGlyph s :: ']' :: [] := by
  cases s <;> rfl

theorem statusMap_statusGlyph (s : ActionStatus) :
    statusMap (statusGlyph s) = some s := by
  cases s <;> rfl

theorem actionMatch_line {g : Char} (hg : glyphOK g = true) {fn : Str}
    (hfn : fn ≠ []) (hdig : ∀ c ∈ fn, isDig c = true) {x y : Char}
    (hx : isDig x = true) (hy : isDig y = true) {dsc : Str} (hd : dsc ≠ [])
    (hdh : ∀ c, dsc.head? = some c → jsWs c = false)
    (hdot : ∀ c ∈ dsc, dotOk c = true) :
    actionMatch ('-' :: ' ' :: '[' :: g :: ']' :: ' ' :: (fn ++ '.' :: x :: y :: ' ' :: dsc)) =
      some (g, fn ++ '.' :: x :: y :: [], dsc) := by
  obtain ⟨d0, fn', rfl⟩ : ∃ d0 fn', fn = d0 :: fn' := by
    cases fn with
    | nil => exact absurd rfl hfn
    | cons d0 fn' => exact ⟨d0, fn', rfl⟩
  have hdw : (' ' :: '[' :: g :: ']' :: ' ' :: ((d0 :: fn') ++ '.' :: x :: y :: ' ' :: dsc)).dropWhile jsWs =
      '[' :: g :: ']' :: ' ' :: ((d0 :: fn') ++ '.' :: x :: y :: ' ' :: dsc) := by
    rw [show (' ' :: '[' :: g :: ']' :: ' ' :: ((d0 :: fn') ++ '.' :: x :: y :: ' ' :: dsc) : Str) =
      [' '] ++ '[' :: g :: ']' :: ' ' :: ((d0 :: fn') ++ '.' :: x :: y :: ' ' :: dsc) from rfl]
    exact dropWhile_append_all (by decide) (by decide) _
  have hws : (' ' :: ((d0 :: fn') ++ '.' :: x :: y :: ' ' :: dsc)).takeWhile jsWs = [' '] := by
    rw [show (' ' :: ((d0 :: fn') ++ '.' :: x :: y :: ' ' :: dsc) : Str) =
      [' '] ++ d0 :: (fn' ++ '.' :: x :: y :: ' ' :: dsc) from rfl]
    exact takeWhile_append_all (by decide)
      (jsWs_of_isDig (hdig d0 (List.mem_cons_self _ _))) _
  have hds : ((d0 :: fn') ++ '.' :: x :: y :: ' ' :: dsc).takeWhile isDig = d0 :: fn' :=
    takeWhile_append_all (fun c hc => hdig c hc) (by decide) _
  have hdrop : ((d0 :: fn') ++ '.' :: x :: y :: ' ' :: dsc).drop (d0 :: fn').length =
      '.' :: x :: y :: ' ' :: dsc := List.drop_left _ _
  rw [actionMatch]
  simp only [hdw, hg, if_true]
  simp only [hws]
  rw [if_neg (by simp)]
  have hdrop1 : ('[' :: g :: ']' :: ' ' :: ((d0 :: fn') ++ '.' :: x :: y :: ' ' :: dsc) : Str) =
      '[' :: g :: ']' :: ' ' :: ((d0 :: fn') ++ '.' :: x :: y :: ' ' :: dsc) := rfl
  have hdropws : (' ' :: ((d0 :: fn') ++ '.' :: x :: y :: ' ' :: dsc)).drop ([' '] : Str).length =
      (d0 :: fn') ++ '.' :: x :: y :: ' ' :: dsc := rfl
  simp only [hdropws, hds]
  rw [if_neg (by simp)]
  simp only [hdrop]
  rw [if_pos (by rw [hx, hy]; rfl)]
  rw [tailCapture1_space hd hdh hdot]
  rfl

/-! ## Helper lemmas: the parse loop on built lines -/

theorem taskStep_blank (st : ParseSt) : taskStep st [] = .ok st := rfl

theorem taskStep_tl_header (st : ParseSt) :
    taskStep st (str ("## Task List")) = .ok st := by
  rw [taskStep]
  have ht : jsTrim (str ("## Task List")) = str ("## Task List") := by decide
  rw [ht, if_pos (Or.inr rfl)]

theorem taskStep_header (st : ParseSt) {n t : Str} (hn : n ≠ [])
    (hdig : ∀ c ∈ n, isDig c = true) (ht : t ≠ []) (htr : jsTrim t = t)
    (hdot : ∀ c ∈ t, dotOk c = true) :
    taskStep st (str ("### Feature ") ++ (n ++ ':' :: ' ' :: t)) =
      .ok ⟨st.features ++ st.current.toList, some ⟨n, t, [], []⟩⟩ := by
  have hthead := head_not_ws_of_trim htr
  have htlast := last_not_ws_of_trim htr
  have hline : jsTrim (str ("### Feature ") ++ (n ++ ':' :: ' ' :: t)) =
      str ("### Feature ") ++ (n ++ ':' :: ' ' :: t) := by
    apply jsTrim_eq_self_of_ends
    · intro c hc
      rw [show (str ("### Feature ") ++ (n ++ ':' :: ' ' :: t)).head? = some '#' from rfl] at hc
      injection hc with h
      subst h
      decide
    · intro c hc
      rw [show str ("### Feature ") ++ (n ++ ':' :: ' ' :: t) =
        (str ("### Feature ") ++ n ++ [':', ' ']) ++ t by simp,
        getLast?_append_right ht] at hc
      exact htlast c hc
  have hne2 : str ("### Feature ") ++ (n ++ ':' :: ' ' :: t) ≠ str ("## Task List") := by
    intro h
    have h2 : (str ("### Feature ") ++ (n ++ ':' :: ' ' :: t))[2]? = (str ("## Task List"))[2]? := by
      rw [h]
    rw [show (str ("### Feature ") ++ (n ++ ':' :: ' ' :: t))[2]? = some '#' from rfl,
      show (str ("## Task List"))[2]? = some ' ' from rfl] at h2
    exact absurd (Option.some.inj h2) (by decide)
  rw [taskStep]
  simp only [hline]
  rw [if_neg (by
    intro h
    rcases h with h | h
    · rw [show str ("### Feature ") ++ (n ++ ':' :: ' ' :: t) =
        '#' :: (str ("## Feature ") ++ (n ++ ':' :: ' ' :: t)) from rfl] at h
      simp at h
    · exact hne2 h)]
  rw [featureMatch_header hn hdig ht hthead hdot]
  show Except.ok (⟨st.features ++ st.current.toList, some ⟨n, jsTrim t, [], []⟩⟩ : ParseSt) = _
  rw [htr]

theorem taskStep_desc (A : List Feature) (g : Feature) {dsc : Str}
    (hd : dsc ≠ []) (htr : jsTrim dsc = dsc)
    (hdot : ∀ c ∈ dsc, dotOk c = true) :
    taskStep ⟨A, some g⟩ (str ("Description: ") ++ dsc) =
      .ok ⟨A, some { g with description := dsc }⟩ := by
  have hdhead := head_not_ws_of_trim htr
  have hdlast := last_not_ws_of_trim htr
  have hline : jsTrim (str ("Description: ") ++ dsc) = str ("Description: ") ++ dsc := by
    apply jsTrim_eq_self_of_ends
    · intro c hc
      rw [show (str ("Description: ") ++ dsc).head? = some 'D' from rfl] at hc
      injection hc with h
      subst h
      decide
    · intro c hc
      rw [getLast?_append_right hd] at hc
      exact hdlast c hc
  have hne2 : str ("Description: ") ++ dsc ≠ str ("## Task List") := by
    intro h
    have h2 : (str ("Description: ") ++ dsc)[0]? = (str ("## Task List"))[0]? := by rw [h]
    rw [show (str ("Description: ") ++ dsc)[0]? = some 'D' from rfl,
      show (str ("## Task List"))[0]? = some '#' from rfl] at h2
    exact absurd (Option.some.inj h2) (by decide)
  rw [taskStep]
  simp only [hline]
  rw [if_neg (by
    intro h
    rcases h with h | h
    · rw [show str ("Description: ") ++ dsc = 'D' :: (str ("escription: ") ++ dsc) from rfl] at h
      simp at h
    · exact hne2 h)]
  rw [featureMatch_eq_none (by rw [show (str ("Description: ") ++ dsc).head? = some 'D' from rfl]; decide)]
  rw [descMatch_line hd hdhead hdot]
  show Except.ok (⟨A, some { g with description := jsTrim dsc }⟩ : ParseSt) = _
  rw [htr]

theorem taskStep_action (A : List Feature) (g : Feature) (a : Action) {x y : Char}
    (hnum : a.number = g.number ++ '.' :: x :: y :: [])
    (hgn : g.number ≠ []) (hdig : ∀ c ∈ g.number, isDig c = true)
    (hx : isDig x = true) (hy : isDig y = true)
    (hd : a.description ≠ []) (htr : jsTrim a.description = a.description)
    (hdot : ∀ c ∈ a.description, dotOk c = true) :
    taskStep ⟨A, some g⟩ (renderAction a.status ++ ' ' :: a.number ++ ' ' :: a.description) =
      .ok ⟨A, some { g with actions := g.actions ++ [a] }⟩ := by
  have hdhead := head_not_ws_of_trim htr
  have hdlast := last_not_ws_of_trim htr
  have hshape : renderAction a.status ++ ' ' :: a.number ++ ' ' :: a.description =
      '-' :: ' ' :: '[' :: statusGlyph a.status :: ']' :: ' ' ::
        (g.number ++ '.' :: x :: y :: ' ' :: a.description) := by
    rw [renderAction_eq, hnum]
    simp [List.append_assoc]
  rw [hshape]
  have hline : jsTrim ('-' :: ' ' :: '[' :: statusGlyph a.status :: ']' :: ' ' ::
      (g.number ++ '.' :: x :: y :: ' ' :: a.description)) =
      '-' :: ' ' :: '[' :: statusGlyph a.status :: ']' :: ' ' ::
      (g.number ++ '.' :: x :: y :: ' ' :: a.description) := by
    apply jsTrim_eq_self_of_ends
    · intro c hc
      injection hc with h
      subst h
      decide
    · intro c hc
      rw [show ('-' :: ' ' :: '[' :: statusGlyph a.status :: ']' :: ' ' ::
        (g.number ++ '.' :: x :: y :: ' ' :: a.description) : Str) =
        ('-' :: ' ' :: '[' :: statusGlyph a.status :: ']' :: ' ' ::
          (g.number ++ ['.', x, y, ' '])) ++ a.description by simp,
        getLast?_append_right hd] at hc
      exact hdlast c hc
  have hne2 : ('-' :: ' ' :: '[' :: statusGlyph a.status :: ']' :: ' ' ::
      (g.number ++ '.' :: x :: y :: ' ' :: a.description) : Str) ≠ str ("## Task List") := by
    intro h
    have h2 := congrArg (fun l => l[0]?) h
    simp only at h2
    rw [show (('-' :: ' ' :: '[' :: statusGlyph a.status :: ']' :: ' ' ::
      (g.number ++ '.' :: x :: y :: ' ' :: a.description) : Str))[0]? = some '-' from rfl,
      show (str ("## Task List"))[0]? = some '#' from rfl] at h2
    exact absurd (Option.some.inj h2) (by decide)
  rw [taskStep]
  simp only [hline]
  rw [if_neg (by
    intro h
    rcases h with h | h
    · simp at h
    · exact hne2 h)]
  rw [featureMatch_eq_none (by rw [List.head?_cons]; decide)]
  rw [descMatch_eq_none (by rw [List.head?_cons]; decide)]
  rw [actionMatch_line (by cases a.status <;> decide) hgn hdig hx hy hd hdhead hdot]
  show ((match statusMap (statusGlyph a.status) with
    | none => Except.error ("Roadmap format is invalid. Unsupported status marker.")
    | some status =>
      if (splitChar '.' (g.number ++ '.' :: x :: y :: [])).headD [] ≠ g.number then
        Except.error ("Action \"" ++ String.mk (g.number ++ '.' :: x :: y :: []) ++
          "\" does not belong to feature \"" ++ String.mk g.number ++ "\".")
      else
        Except.ok (⟨A, some { g with actions := g.actions ++
          [(⟨g.number ++ '.' :: x :: y :: [], jsTrim a.description, status⟩ : Action)] }⟩ : ParseSt)) :
      Except String ParseSt) = _
  rw [statusMap_statusGlyph]
  have hsplit : (splitChar '.' (g.number ++ '.' :: x :: y :: [])).headD [] = g.number := by
    rw [splitChar_append_cons (fun hm => absurd rfl (ne_of_isDig (hdig '.' hm) (by decide)))]
    rfl
  show ((if (splitChar '.' (g.number ++ '.' :: x :: y :: [])).headD [] ≠ g.number then
      Except.error ("Action \"" ++ String.mk (g.number ++ '.' :: x :: y :: []) ++
        "\" does not belong to feature \"" ++ String.mk g.number ++ "\".")
    else
      Except.ok (⟨A, some { g with actions := g.actions ++
        [(⟨g.number ++ '.' :: x :: y :: [], jsTrim a.description, a.status⟩ : Action)] }⟩ : ParseSt)) :
    Except String ParseSt) = _
  rw [if_neg (by rw [hsplit]; exact fun h => h rfl)]
  show Except.ok (⟨A, some { g with actions := g.actions ++
    [⟨g.number ++ '.' :: x :: y :: [], jsTrim a.description, a.status⟩] }⟩ : ParseSt) = _
  rw [htr, ← hnum]

/-! ## Validity of an in-memory roadmap (the claim's side conditions) -/

/-- A text field fit for one line of the document: non-empty, equal to its
own trim, and free of line terminators. -/
def lineOK (t : Str) : Bool :=
  !t.isEmpty && (jsTrim t == t) && t.all dotOk

/-- A valid action under feature number `fn`: its number is
`fn ++ "." ++ two digits` and its description is a valid line. -/
def actionOK (fn : Str) (a : Action) : Bool :=
  (match a.number.drop fn.length with
   | '.' :: x :: y :: [] => (a.number.take fn.length == fn) && isDig x && isDig y
   | _ => false) && lineOK a.description

/-- A valid feature: numeric number, valid title/description lines, at
least one action, all actions valid. -/
def featureOK (f : Feature) : Bool :=
  !f.number.isEmpty && f.number.all isDig && lineOK f.title &&
  lineOK f.description && !f.actions.isEmpty && f.actions.all (actionOK f.number)

/-- A valid roadmap: at least one feature (the data-model invariant) and
all features valid. -/
def validRoadmap (r : Roadmap) : Bool :=
  !r.features.isEmpty && r.features.all featureOK

theorem ne_nil_of_isEmpty_eq_false {α : Type} {l : List α}
    (h : l.isEmpty = false) : l ≠ [] := by
  cases l <;> simp_all

theorem lineOK_decomp {t : Str} (h : lineOK t = true) :
    t ≠ [] ∧ jsTrim t = t ∧ ∀ c ∈ t, dotOk c = true := by
  simp only [lineOK, Bool.and_eq_true, beq_iff_eq, List.all_eq_true,
    Bool.not_eq_true'] at h
  exact ⟨ne_nil_of_isEmpty_eq_false h.1.1, h.1.2, h.2⟩

theorem actionOK_decomp {fn : Str} {a : Action} (h : actionOK fn a = true) :
    (∃ x y, a.number = fn ++ '.' :: x :: y :: [] ∧ isDig x = true ∧ isDig y = true) ∧
      lineOK a.description = true := by
  simp only [actionOK, Bool.and_eq_true] at h
  obtain ⟨hm, h2⟩ := h
  refine ⟨?_, h2⟩
  split at hm
  next x y heq =>
    simp only [Bool.and_eq_true, beq_iff_eq] at hm
    refine ⟨x, y, ?_, hm.1.2, hm.2⟩
    calc a.number = a.number.take fn.length ++ a.number.drop fn.length :=
          (List.take_append_drop _ _).symm
    _ = fn ++ '.' :: x :: y :: [] := by rw [hm.1.1, heq]
  next => exact absurd hm (by simp)

theorem featureOK_decomp {f : Feature} (h : featureOK f = true) :
    f.number ≠ [] ∧ (∀ c ∈ f.number, isDig c = true) ∧ lineOK f.title = true ∧
      lineOK f.description = true ∧ f.actions ≠ [] ∧
      ∀ a ∈ f.actions, actionOK f.number a = true := by
  simp only [featureOK, Bool.and_eq_true, List.all_eq_true, Bool.not_eq_true'] at h
  exact ⟨ne_nil_of_isEmpty_eq_false h.1.1.1.1.1, h.1.1.1.1.2, h.1.1.1.2, h.1.1.2,
    ne_nil_of_isEmpty_eq_false h.1.2, h.2⟩

/-! ## The parse loop over the built task list -/

theorem foldlM_nil_ex {σ α : Type} (f : σ → α → Except String σ) (b : σ) :
    List.foldlM f b [] = pure b := rfl

theorem foldlM_cons_ex {σ α : Type} (f : σ → α → Except String σ) (b : σ)
    (a : α) (l : List α) :
    List.foldlM f b (a :: l) = f b a >>= fun b2 => List.foldlM f b2 l := rfl

theorem foldTask_actions {A : List Feature} {g : Feature} {as : List Action}
    (hgn : g.number ≠ []) (hdig : ∀ c ∈ g.number, isDig c = true)
    (hv : ∀ a ∈ as, actionOK g.number a = true) :
    (as.map fun a => renderAction a.status ++ ' ' :: a.number ++ ' ' :: a.description).foldlM
        taskStep ⟨A, some g⟩ =
      .ok ⟨A, some { g with actions := g.actions ++ as }⟩ := by
  induction as generalizing g with
  | nil =>
    show (pure (⟨A, some g⟩ : ParseSt) : Except String ParseSt) = _
    rw [List.append_nil]
    rfl
  | cons a as' ih =>
    obtain ⟨⟨x, y, hnum, hx, hy⟩, hline⟩ := actionOK_decomp (hv a (List.mem_cons_self a as'))
    obtain ⟨hd, htr, hdot⟩ := lineOK_decomp hline
    rw [List.map_cons, foldlM_cons_ex,
      taskStep_action A g a hnum hgn hdig hx hy hd htr hdot, exbind_ok]
    show (as'.map fun a => renderAction a.status ++ ' ' :: a.number ++ ' ' :: a.description).foldlM
        taskStep ⟨A, some { g with actions := g.actions ++ [a] }⟩ = _
    rw [ih (g := { g with actions := g.actions ++ [a] }) hgn hdig
      (fun b hb => hv b (List.mem_cons_of_mem a hb))]
    simp

theorem foldTask_feature {f : Feature} (hOK : featureOK f = true) (st : ParseSt) :
    (featureLines f).foldlM taskStep st =
      .ok ⟨st.features ++ st.current.toList, some f⟩ := by
  obtain ⟨hn, hdig, htitle, hdesc, hacts, hav⟩ := featureOK_decomp hOK
  obtain ⟨ht, httr, htdot⟩ := lineOK_decomp htitle
  obtain ⟨hdne, hdtr, hddot⟩ := lineOK_decomp hdesc
  have hhead : str ("### Feature ") ++ f.number ++ str (": ") ++ f.title =
      str ("### Feature ") ++ (f.number ++ ':' :: ' ' :: f.title) := by
    rw [List.append_assoc, List.append_assoc]
    rfl
  rw [featureLines, hhead, List.cons_append, List.cons_append, foldlM_cons_ex,
    taskStep_header st hn hdig ht httr htdot, exbind_ok]
  show (((str ("Description: ") ++ f.description) ::
      ((f.actions.map fun (a : Action) => renderAction a.status ++ ' ' :: a.number ++ ' ' :: a.description) ++ [[]])).foldlM
      taskStep ⟨st.features ++ st.current.toList, some ⟨f.number, f.title, [], []⟩⟩ : Except String ParseSt) = _
  rw [foldlM_cons_ex, taskStep_desc _ _ hdne hdtr hddot, exbind_ok]
  show ((((f.actions.map fun (a : Action) => renderAction a.status ++ ' ' :: a.number ++ ' ' :: a.description) ++ [[]])).foldlM
      taskStep ⟨st.features ++ st.current.toList, some ⟨f.number, f.title, f.description, []⟩⟩ :
      Except String ParseSt) = _
  rw [List.foldlM_append,
    foldTask_actions (g := ⟨f.number, f.title, f.description, []⟩) hn hdig hav, exbind_ok]
  show (([([] : Str)]).foldlM taskStep
      ⟨st.features ++ st.current.toList, some ⟨f.number, f.title, f.description, [] ++ f.actions⟩⟩ :
      Except String ParseSt) = _
  rw [foldlM_cons_ex, taskStep_blank, exbind_ok]
  show (Except.ok (⟨st.features ++ st.current.toList,
    some ⟨f.number, f.title, f.description, [] ++ f.actions⟩⟩ : ParseSt) : Except String ParseSt) = _
  rw [List.nil_append]

/-- The state accumulator a block of feature lines applies. -/
def blockStep (s : ParseSt) (f : Feature) : ParseSt :=
  ⟨s.features ++ s.current.toList, some f⟩

theorem foldTask_blocks {fs : List Feature} (hv : ∀ f ∈ fs, featureOK f = true)
    (st : ParseSt) :
    ((fs.map featureLines).flatten).foldlM taskStep st =
      .ok (fs.foldl blockStep st) := by
  induction fs generalizing st with
  | nil => rfl
  | cons f fs' ih =>
    rw [List.map_cons, List.flatten_cons, List.foldlM_append,
      foldTask_feature (hv f (List.mem_cons_self f fs')) st, exbind_ok]
    show ((fs'.map featureLines).flatten).foldlM taskStep (blockStep st f) = _
    rw [ih (fun g hg => hv g (List.mem_cons_of_mem f hg))]
    rfl

theorem finalized_foldl (fs : List Feature) (st : ParseSt) :
    (fs.foldl blockStep st).features ++ (fs.foldl blockStep st).current.toList =
      (st.features ++ st.current.toList) ++ fs := by
  induction fs generalizing st with
  | nil => simp
  | cons f fs' ih =>
    rw [List.foldl_cons, ih]
    simp [blockStep, List.append_assoc]

theorem finalCheck_none {fs : List Feature} (hv : ∀ f ∈ fs, featureOK f = true) :
    finalCheck fs = none := by
  induction fs with
  | nil => rfl
  | cons f fs' ih =>
    obtain ⟨-, -, -, hdesc, hacts, -⟩ := featureOK_decomp (hv f (List.mem_cons_self f fs'))
    obtain ⟨hdne, -, -⟩ := lineOK_decomp hdesc
    rw [finalCheck, if_neg hdne, if_neg hacts]
    exact ih fun g hg => hv g (List.mem_cons_of_mem f hg)

theorem dotOk_ne_nl {c : Char} (h : dotOk c = true) : c ≠ '\n' := by
  intro he
  subst he
  simp [dotOk, lineTerm] at h

theorem buildTaskListLines_nl_free {r : Roadmap} (hv : ∀ f ∈ r.features, featureOK f = true) :
    ∀ l ∈ buildTaskListLines r, '\n' ∉ l := by
  intro l hl
  simp only [buildTaskListLines, List.mem_flatten, List.mem_map] at hl
  obtain ⟨ls, ⟨f, hf, hls⟩, hlmem⟩ := hl
  subst hls
  obtain ⟨hn, hdig, htitle, hdesc, hacts, hav⟩ := featureOK_decomp (hv f hf)
  obtain ⟨ht1, ht2, htdot⟩ := lineOK_decomp htitle
  obtain ⟨hd1, hd2, hddot⟩ := lineOK_decomp hdesc
  have hnnum : '\n' ∉ f.number := fun hmem =>
    absurd rfl (Ne.symm (ne_of_isDig (hdig _ hmem) (by decide)))
  have hntitle : '\n' ∉ f.title := fun hmem => dotOk_ne_nl (htdot _ hmem) rfl
  have hndesc : '\n' ∉ f.description := fun hmem => dotOk_ne_nl (hddot _ hmem) rfl
  rw [featureLines] at hlmem
  rcases List.mem_cons.mp hlmem with he | hmem2
  · subst he
    intro hm
    have hns : ('\n' : Char) ∉ str ("### Feature ") := by decide
    have hnc : ('\n' : Char) ∉ str (": ") := by decide
    rcases List.mem_append.mp hm with h | h
    · rcases List.mem_append.mp h with h2 | h2
      · rcases List.mem_append.mp h2 with h3 | h3
        · exact hns h3
        · exact hnnum h3
      · exact hnc h2
    · exact hntitle h
  rcases List.mem_cons.mp hmem2 with he | hmem3
  · subst he
    intro hm
    rcases List.mem_append.mp hm with h | h
    · exact absurd h (by decide)
    · exact hndesc h
  rcases List.mem_append.mp hmem3 with hmem4 | hmem4
  · obtain ⟨a, ha, he⟩ := List.mem_map.mp hmem4
    subst he
    obtain ⟨⟨x, y, hnum, hx, hy⟩, hline⟩ := actionOK_decomp (hav a ha)
    obtain ⟨ha1, ha2, hadot⟩ := lineOK_decomp hline
    have hr : '\n' ∉ renderAction a.status := by cases a.status <;> decide
    have hna : '\n' ∉ a.number := by
      rw [hnum]
      intro h
      rcases List.mem_append.mp h with h4 | h4
      · exact hnnum h4
      · rcases List.mem_cons.mp h4 with h5 | h5
        · exact absurd h5 (by decide)
        · rcases List.mem_cons.mp h5 with h6 | h6
          · exact absurd rfl (Ne.symm (ne_of_isDig hx (h6 ▸ by decide)))
          · rcases List.mem_cons.mp h6 with h7 | h7
            · exact absurd rfl (Ne.symm (ne_of_isDig hy (h7 ▸ by decide)))
            · simp at h7
    have hnd : '\n' ∉ a.description := fun hmem => dotOk_ne_nl (hadot _ hmem) rfl
    intro hm
    apply absurd hm
    simp only [List.mem_append, List.mem_cons, List.not_mem_nil, or_false]
    push_neg
    refine ⟨⟨hr, ?_⟩, ?_⟩
    · exact ⟨by decide, hna⟩
    · exact ⟨by decide, hnd⟩
  · rcases List.mem_cons.mp hmem4 with he | he
    · subst he
      simp
    · simp at he

theorem buildTaskListLines_ne_nil {r : Roadmap} (hne : r.features ≠ []) :
    buildTaskListLines r ≠ [] := by
  cases hf : r.features with
  | nil => exact absurd hf hne
  | cons f fs =>
    simp only [buildTaskListLines, hf, List.map_cons, List.flatten_cons, ne_eq,
      List.append_eq_nil]
    intro hcon
    exact absurd hcon.1 (by simp [featureLines])

theorem parseTaskList_build {r : Roadmap} (hv : validRoadmap r = true) :
    parseTaskList (joinNL ([] :: str ("## Task List") :: [] :: buildTaskListLines r)) =
      .ok r := by
  have hv2 : ∀ f ∈ r.features, featureOK f = true := by
    simp only [validRoadmap, Bool.and_eq_true, List.all_eq_true] at hv
    exact hv.2
  have hne : r.features ≠ [] := by
    simp only [validRoadmap, Bool.and_eq_true, Bool.not_eq_true'] at hv
    exact ne_nil_of_isEmpty_eq_false hv.1
  have hlines : ∀ l ∈ ([] :: str ("## Task List") :: [] :: buildTaskListLines r : List Str), '\n' ∉ l := by
    intro l hl
    rcases List.mem_cons.mp hl with he | hl2
    · subst he; simp
    · rcases List.mem_cons.mp hl2 with he | hl3
      · subst he; decide
      · rcases List.mem_cons.mp hl3 with he | hl4
        · subst he; simp
        · exact buildTaskListLines_nl_free hv2 l hl4
  have hsplit : splitChar '\n' (joinNL ([] :: str ("## Task List") :: [] :: buildTaskListLines r)) =
      [] :: str ("## Task List") :: [] :: buildTaskListLines r :=
    splitChar_joinNL (by simp) hlines
  rw [parseTaskList, hsplit]
  rw [foldlM_cons_ex, taskStep_blank, exbind_ok, foldlM_cons_ex, taskStep_tl_header,
    exbind_ok, foldlM_cons_ex, taskStep_blank, exbind_ok]
  have hblocks : buildTaskListLines r = (r.features.map featureLines).flatten := rfl
  rw [hblocks, foldTask_blocks hv2, exbind_ok]
  have hfin := finalized_foldl r.features ⟨[], none⟩
  simp only [List.nil_append, Option.toList_none, List.append_nil] at hfin
  rw [hfin]
  rw [if_neg hne, finalCheck_none hv2]
  rfl

/-! ## Shared build-and-parse lemma -/

theorem parseDocument_build (d : RoadmapDocument) (hf : d.feature ≠ [])
    (hv : validRoadmap d.roadmap = true) :
    ∃ sp, parseDocument (buildDocument d) =
      .ok ⟨d.feature.flatMap jsonEscChar, sp, d.roadmap⟩ := by
  have hne : d.roadmap.features ≠ [] := by
    simp only [validRoadmap, Bool.and_eq_true, Bool.not_eq_true'] at hv
    exact ne_nil_of_isEmpty_eq_false hv.1
  have hbody : buildTaskListLines d.roadmap ≠ [] := buildTaskListLines_ne_nil hne
  obtain ⟨sp, hfm⟩ := parseFrontmatter_build d hf
  refine ⟨sp, ?_⟩
  rw [parseDocument, splitFrontmatter_build d hbody, exbind_ok]
  show (parseFrontmatter (joinNL (fmLines d)) >>= fun p =>
    (parseTaskList (joinNL (bodyTail d)) >>= fun rm =>
      pure ⟨p.1, p.2, rm⟩ : Except String RoadmapDocument)) = _
  rw [hfm, exbind_ok]
  show (parseTaskList (joinNL (bodyTail d)) >>= fun rm =>
    pure ⟨d.feature.flatMap jsonEscChar, sp, rm⟩ : Except String RoadmapDocument) = _
  rw [show joinNL (bodyTail d) =
    joinNL ([] :: str ("## Task List") :: [] :: buildTaskListLines d.roadmap) from rfl]
  rw [parseTaskList_build hv, exbind_ok]
  rfl

/-- A small concrete valid roadmap, used by the concrete witnesses. -/
def sampleRoadmap : Roadmap :=
  ⟨[⟨str ("1"), str ("Auth"), str ("Login system"),
     [⟨str ("1.01"), str ("Build form"), .pending⟩,
      ⟨str ("1.02"), str ("Wire API"), .completed⟩]⟩,
    ⟨str ("2"), str ("Data"), str ("Store data"),
     [⟨str ("2.01"), str ("Schema"), .in_progress⟩]⟩]⟩

/-! ## Claims -/

/-- C1.  Codec round-trip: for every valid in-memory roadmap (every feature
number matching `\d+`, every action number `\d+\.\d{2}` with prefix equal to
its feature's number, every title and description a non-empty
line-terminator-free string equal to its own trim, at least one action per
feature — and, per the data model, at least one feature) wrapped in a
document with a non-absent `feature` label, parsing the built document
succeeds and returns exactly the original roadmap tree. -/
theorem C1_codec_roundtrip (d : RoadmapDocument) (hf : d.feature ≠ [])
    (hv : validRoadmap d.roadmap = true) :
    ∃ d2, parseDocument (buildDocument d) = .ok d2 ∧ d2.roadmap = d.roadmap := by
  obtain ⟨sp, h⟩ := parseDocument_build d hf hv
  exact ⟨_, h, rfl⟩

/-- Witness for C1 at a concrete two-feature document. -/
theorem C1_witness :
    (⟨str ("auth"), str ("Login spec"), sampleRoadmap⟩ : RoadmapDocument).feature ≠ [] ∧
    validRoadmap sampleRoadmap = true ∧
    ∃ d2, parseDocument (buildDocument ⟨str ("auth"), str ("Login spec"), sampleRoadmap⟩) =
      .ok d2 ∧ d2.roadmap = sampleRoadmap :=
  ⟨by decide, by decide,
   C1_codec_roundtrip ⟨str ("auth"), str ("Login spec"), sampleRoadmap⟩ (by decide) (by decide)⟩

/-- C2.  Update atomicity: whenever the caller-supplied transform fails with
a domain error, `FileStorage.update` propagates exactly that error, leaves
the on-disk document exactly as it was, and does not hold the lock
afterwards. -/
theorem C2_update_error_atomic {E T : Type} (st : StorageState)
    (fn : Option Roadmap → Except E (UpdateRes T)) (cur : Option Roadmap) (e : E)
    (hread : readFromDisk st.file = .ok cur) (hfn : fn cur = .error e) :
    updateRun st fn = (.error (.domain e), st, false) := by
  rw [updateRun]
  simp only [hread, hfn]

/-- Witness for C2: a transform that always throws a domain error. -/
theorem C2_witness :
    readFromDisk (none : Option Str) = .ok none ∧
    updateRun ⟨none, none⟩
        (fun (_ : Option Roadmap) =>
          (.error "Action not found" : Except String (UpdateRes Unit))) =
      (.error (.domain "Action not found"), ⟨none, none⟩, false) :=
  ⟨rfl, C2_update_error_atomic ⟨none, none⟩ _ none "Action not found" rfl rfl⟩

/-- C7 counterexample: for a requested status outside the enumeration, a
status update of a cancelled action fails with `INVALID_STATUS`, not with
the claimed terminal-state error `INVALID_STATUS_TRANSITION`. -/
theorem C7_counterexample :
    (validateStatusProgression "cancelled" "bogus").map ValidationError.code =
      some "INVALID_STATUS" ∧
    (validateStatusProgression "cancelled" "bogus").map ValidationError.code ≠
      some "INVALID_STATUS_TRANSITION" := by
  constructor
  · rfl
  · decide

/-- C7 amended: for every requested status *within the enumeration*,
updating a cancelled action fails with the terminal-state error
`INVALID_STATUS_TRANSITION`; an unrecognized requested status is rejected
first with `INVALID_STATUS`. -/
theorem C7_amended (s : String)
    (hs : s ∈ ["pending", "in_progress", "completed", "cancelled"]) :
    (validateStatusProgression "cancelled" s).map ValidationError.code =
      some "INVALID_STATUS_TRANSITION" := by
  fin_cases hs <;> rfl

/-- Witness for C7 at the requested status `completed`. -/
theorem C7_witness :
    ("completed" ∈ ["pending", "in_progress", "completed", "cancelled"]) ∧
    (validateStatusProgression "cancelled" "completed").map ValidationError.code =
      some "INVALID_STATUS_TRANSITION" :=
  ⟨by decide, C7_amended "completed" (by decide)⟩

/-- C9.  Lenient decode: a body line that matches none of the three
recognized patterns (feature header, description, action checkbox) never
raises an error in the parse loop — it is skipped, leaving the state
untouched. -/
theorem C9_lenient_skip (st : ParseSt) (l : Str)
    (hfm : featureMatch (jsTrim l) = none)
    (hdm : descMatch (jsTrim l) = none)
    (ham : actionMatch (jsTrim l) = none) :
    taskStep st l = .ok st := by
  rw [taskStep]
  by_cases hskip : jsTrim l = [] ∨ jsTrim l = str ("## Task List")
  · rw [if_pos hskip]
  · rw [if_neg hskip, hfm, hdm, ham]

/-- Witness for C9 on a garbage line. -/
theorem C9_witness :
    featureMatch (jsTrim (str ("@@ garbage @@"))) = none ∧
    descMatch (jsTrim (str ("@@ garbage @@"))) = none ∧
    actionMatch (jsTrim (str ("@@ garbage @@"))) = none ∧
    taskStep ⟨[], none⟩ (str ("@@ garbage @@")) = .ok ⟨[], none⟩ :=
  ⟨by decide, by decide, by decide,
   C9_lenient_skip ⟨[], none⟩ (str ("@@ garbage @@")) (by decide) (by decide) (by decide)⟩

/-- C10 counterexample: the label `"\t"` contains no double-quote, no
backslash and no newline, yet the `feature` metadata field does not
round-trip: `JSON.stringify` escapes the tab while `parseScalar` never
unescapes, so the label comes back as the two characters `\` `t`. -/
theorem C10_counterexample :
    (['\t'] : Str).all (fun c => !(c == '"') && !(c == '\\') && !(c == '\n')) = true ∧
    (parseDocument (buildDocument ⟨['\t'], [], sampleRoadmap⟩)).map RoadmapDocument.feature =
      .ok ['\\', 't'] ∧
    (['\\', 't'] : Str) ≠ ['\t'] := by
  refine ⟨by decide, ?_, by decide⟩
  rfl

theorem flatMap_jsonEscChar_id {l : Str} (h : ∀ c ∈ l, jsonEscChar c = [c]) :
    l.flatMap jsonEscChar = l := by
  induction l with
  | nil => rfl
  | cons c t ih =>
    rw [List.flatMap_cons, h c (List.mem_cons_self c t),
      ih fun x hx => h x (List.mem_cons_of_mem c hx)]
    rfl

theorem jsonEscChar_id {c : Char} (h1 : c ≠ '"') (h2 : c ≠ '\\')
    (h3 : ¬ c.val.toNat < 0x20) : jsonEscChar c = [c] := by
  rw [jsonEscChar]
  rw [if_neg h1, if_neg h2,
    if_neg (fun he => h3 (by rw [he]; decide)),
    if_neg (fun he => h3 (by rw [he]; decide)),
    if_neg (fun he => h3 (by rw [he]; decide)),
    if_neg (by omega), if_neg (by omega), if_neg h3]

/-- C10 amended: the feature label round-trips exactly when it is non-empty
and contains no character rewritten by JSON string escaping — no
double-quote, no backslash, and no control character below U+0020 (which
also excludes newlines); and a label containing a double-quote does not
round-trip. -/
theorem C10_amended (d : RoadmapDocument) (hf : d.feature ≠ [])
    (hplain : ∀ c ∈ d.feature, c ≠ '"' ∧ c ≠ '\\' ∧ ¬ c.val.toNat < 0x20)
    (hv : validRoadmap d.roadmap = true) :
    (parseDocument (buildDocument d)).map RoadmapDocument.feature = .ok d.feature ∧
    (parseDocument (buildDocument ⟨str ("a\"b"), [], sampleRoadmap⟩)).map
      RoadmapDocument.feature ≠ .ok (str ("a\"b")) := by
  constructor
  · obtain ⟨sp, h⟩ := parseDocument_build d hf hv
    rw [h]
    show Except.ok (d.feature.flatMap jsonEscChar) = _
    rw [flatMap_jsonEscChar_id fun c hc =>
      jsonEscChar_id (hplain c hc).1 (hplain c hc).2.1 (hplain c hc).2.2]
  · intro h
    have h2 : (parseDocument (buildDocument ⟨str ("a\"b"), [], sampleRoadmap⟩)).map
        RoadmapDocument.feature = .ok ['a', '\\', '"', 'b'] := rfl
    rw [h2] at h
    have h3 : (['a', '\\', '"', 'b'] : Str) = str ("a\"b") := Except.ok.inj h
    exact absurd h3 (by decide)

/-- Witness for C10 (amended) at a concrete plain label. -/
theorem C10_witness :
    ((⟨str ("auth"), str ("s"), sampleRoadmap⟩ : RoadmapDocument).feature ≠ []) ∧
    (parseDocument (buildDocument ⟨str ("auth"), str ("s"), sampleRoadmap⟩)).map
      RoadmapDocument.feature = .ok (str ("auth")) :=
  ⟨by decide,
   (C10_amended ⟨str ("auth"), str ("s"), sampleRoadmap⟩ (by decide) (by decide) (by decide)).1⟩

/-- C8.  Read semantics: `read` returns absent exactly when the file is
missing or its content is empty/whitespace-only; a present, non-blank file
either decodes through JSON parsing and schema validation or raises the
matching distinguishable error — a returned document always comes from a
successful parse followed by successful schema validation (never a
coercion); and the two failure modes are distinguishable. -/
theorem C8_read_semantics (c : Option Str) :
    (readFromDisk c = .ok none ↔ c = none ∨ ∃ s, c = some s ∧ jsTrim s = []) ∧
    (∀ s, c = some s → jsTrim s ≠ [] →
      (jsonParse s = none → readFromDisk c = .error .formatError) ∧
      (∀ v, jsonParse s = some v → decodeRoadmap v = none →
        readFromDisk c = .error .schemaError) ∧
      (∀ r, readFromDisk c = .ok (some r) →
        ∃ v, jsonParse s = some v ∧ decodeRoadmap v = some r)) ∧
    ReadErr.formatError ≠ ReadErr.schemaError := by
  refine ⟨?_, ?_, by decide⟩
  · cases c with
    | none => simp [readFromDisk]
    | some s =>
      rw [readFromDisk]
      by_cases ht : jsTrim s = []
      · rw [if_pos ht]
        simp [ht]
      · rw [if_neg ht]
        cases hp : jsonParse s with
        | none => simp [ht, hp]
        | some v =>
          cases hd : decodeRoadmap v with
          | none => simp [ht, hp, hd]
          | some r => simp [ht, hp, hd]
  · intro s hc ht
    subst hc
    rw [readFromDisk, if_neg ht]
    refine ⟨?_, ?_, ?_⟩
    · intro hp
      simp [hp]
    · intro v hp hd
      simp [hp, hd]
    · intro r hr
      cases hp : jsonParse s with
      | none => simp [hp] at hr
      | some v =>
        cases hd : decodeRoadmap v with
        | none => simp [hp, hd] at hr
        | some r2 =>
          simp [hp, hd] at hr
          exact ⟨v, rfl, by rw [hd, hr]⟩

/-- Witness for C8: a present but non-JSON file raises the format error. -/
theorem C8_witness : readFromDisk (some (str ("\x7b"))) = .error .formatError :=
  ((C8_read_semantics (some (str ("\x7b")))).2.1 (str ("\x7b")) rfl (by decide)).1 rfl

/-! ## Structural validation of the create tool input -/

theorem structuralPass_ok {P : List InputFeature} (h : ∀ f ∈ P, f.actions ≠ []) :
    structuralPass P = .ok (P.flatMap collectFeatureErrs) := by
  induction P with
  | nil => rfl
  | cons f t ih =>
    rw [structuralPass, if_neg (h f (List.mem_cons_self f t)),
      ih fun g hg => h g (List.mem_cons_of_mem f hg)]
    rfl

/-- C4 counterexample: a proposed batch whose first feature has zero
actions and whose second feature has an empty title fails with the
zero-action error for the first feature alone — the empty-title violation
of the second feature (a genuine violation, as the last conjunct shows) is
not reported. -/
theorem C4_counterexample :
    createRoadmapTransform
        [⟨str ("1"), str ("T"), str ("D"), []⟩,
         ⟨str ("2"), [], str ("D2"), [⟨str ("2.01"), str ("a")⟩]⟩] none =
      .error (.emptyFeature (str ("1"))) ∧
    validateTitle ([] : Str) .feature =
      some ⟨"INVALID_TITLE", "Invalid feature title. Must be non-empty string."⟩ := by
  exact ⟨rfl, rfl⟩

/-- C4 amended: title/description violations are aggregated across the
whole proposed batch and reported together in one validation error — but
only when no proposed feature has zero actions; a zero-action feature
raises immediately, naming only that feature (see the counterexample). -/
theorem C4_amended (P : List InputFeature) (cur : Option Roadmap)
    (hact : ∀ f ∈ P, f.actions ≠ []) (f0 : InputFeature) (e0 : ValidationError)
    (hf0 : f0 ∈ P)
    (hv : validateTitle f0.title .feature = some e0 ∨
      validateDescription f0.description .feature = some e0) :
    ∃ errs, createRoadmapTransform P cur = .error (.validationErrors errs) ∧
      (∀ f ∈ P, ∀ e, validateTitle f.title .feature = some e → e ∈ errs) ∧
      (∀ f ∈ P, ∀ e, validateDescription f.description .feature = some e → e ∈ errs) ∧
      (∀ f ∈ P, ∀ a ∈ f.actions, ∀ e,
        validateTitle a.description .action = some e → e ∈ errs) := by
  have hmem : ∀ f ∈ P, ∀ e, (validateTitle f.title .feature = some e ∨
      validateDescription f.description .feature = some e ∨
      (∃ a ∈ f.actions, validateTitle a.description .action = some e)) →
      e ∈ P.flatMap collectFeatureErrs := by
    intro f hf e he
    apply List.mem_flatMap.mpr
    refine ⟨f, hf, ?_⟩
    rw [collectFeatureErrs]
    rcases he with he | he | ⟨a, ha, he⟩
    · exact List.mem_append.mpr (Or.inl (List.mem_append.mpr (Or.inl (by rw [he]; simp))))
    · exact List.mem_append.mpr (Or.inl (List.mem_append.mpr (Or.inr (by rw [he]; simp))))
    · refine List.mem_append.mpr (Or.inr ?_)
      exact List.mem_filterMap.mpr ⟨a, ha, he⟩
  have hne : P.flatMap collectFeatureErrs ++ validateFeatureSequence (inputSeqPairs P) ≠ [] := by
    intro hempty
    have : e0 ∈ P.flatMap collectFeatureErrs := by
      apply hmem f0 hf0 e0
      rcases hv with h | h
      · exact Or.inl h
      · exact Or.inr (Or.inl h)
    rw [List.append_eq_nil] at hempty
    rw [hempty.1] at this
    simp at this
  refine ⟨P.flatMap collectFeatureErrs ++ validateFeatureSequence (inputSeqPairs P), ?_, ?_, ?_, ?_⟩
  · rw [createRoadmapTransform]
    rw [structuralPass_ok hact, exbindd_ok]
    rw [if_pos hne]
  · intro f hf e he
    exact List.mem_append.mpr (Or.inl (hmem f hf e (Or.inl he)))
  · intro f hf e he
    exact List.mem_append.mpr (Or.inl (hmem f hf e (Or.inr (Or.inl he))))
  · intro f hf a ha e he
    exact List.mem_append.mpr (Or.inl (hmem f hf e (Or.inr (Or.inr ⟨a, ha, he⟩))))

/-- Witness for C4 (amended): both an empty title and an empty (whitespace)
description in one batch are reported together. -/
theorem C4_witness :
    (∀ f ∈ ([⟨str ("1"), [], str ("D"), [⟨str ("1.01"), str ("a")⟩]⟩,
             ⟨str ("2"), str ("T2"), str (" "), [⟨str ("2.01"), str ("b")⟩]⟩] : List InputFeature),
      f.actions ≠ []) ∧
    ∃ errs, createRoadmapTransform
        [⟨str ("1"), [], str ("D"), [⟨str ("1.01"), str ("a")⟩]⟩,
         ⟨str ("2"), str ("T2"), str (" "), [⟨str ("2.01"), str ("b")⟩]⟩] none =
      .error (.validationErrors errs) ∧
      (∀ f ∈ ([⟨str ("1"), [], str ("D"), [⟨str ("1.01"), str ("a")⟩]⟩,
               ⟨str ("2"), str ("T2"), str (" "), [⟨str ("2.01"), str ("b")⟩]⟩] : List InputFeature),
        ∀ e, validateTitle f.title .feature = some e → e ∈ errs) ∧
      (∀ f ∈ ([⟨str ("1"), [], str ("D"), [⟨str ("1.01"), str ("a")⟩]⟩,
               ⟨str ("2"), str ("T2"), str (" "), [⟨str ("2.01"), str ("b")⟩]⟩] : List InputFeature),
        ∀ e, validateDescription f.description .feature = some e → e ∈ errs) ∧
      (∀ f ∈ ([⟨str ("1"), [], str ("D"), [⟨str ("1.01"), str ("a")⟩]⟩,
               ⟨str ("2"), str ("T2"), str (" "), [⟨str ("2.01"), str ("b")⟩]⟩] : List InputFeature),
        ∀ a ∈ f.actions, ∀ e, validateTitle a.description .action = some e → e ∈ errs) :=
  ⟨by decide,
   C4_amended _ none (by decide) ⟨str ("1"), [], str ("D"), [⟨str ("1.01"), str ("a")⟩]⟩
     ⟨"INVALID_TITLE", "Invalid feature title. Must be non-empty string."⟩
     (by decide) (Or.inl (by decide))⟩

/-! ## Numeric parsing of validated identifiers -/

theorem takeWhile_all {p : Char → Bool} {l : Str} (h : ∀ c ∈ l, p c = true) :
    l.takeWhile p = l := by
  induction l with
  | nil => rfl
  | cons a t ih =>
    rw [List.takeWhile_cons, if_pos (h a (List.mem_cons_self a t)),
      ih fun c hc => h c (List.mem_cons_of_mem a hc)]

theorem signSplit_digit {c : Char} (hc : isDig c = true) (t : Str) :
    signSplit (c :: t) = (false, c :: t) := by
  have h1 : c ≠ '-' := ne_of_isDig hc (by decide)
  have h2 : c ≠ '+' := ne_of_isDig hc (by decide)
  unfold signSplit
  split
  next t2 heq =>
    injection heq with hx _
    exact absurd hx h1
  next t2 heq =>
    injection heq with hx _
    exact absurd hx h2
  next => rfl

theorem parseIntM_digits {n : Str} (h : featureNumFormat n = true) :
    parseIntM n = some (digitsVal n : Int) := by
  simp only [featureNumFormat, Bool.and_eq_true, Bool.not_eq_true'] at h
  obtain ⟨hne, hall⟩ := h
  have hne2 : n ≠ [] := ne_nil_of_isEmpty_eq_false hne
  obtain ⟨c, t, rfl⟩ := List.exists_cons_of_ne_nil hne2
  rw [List.all_eq_true] at hall
  have hc : isDig c = true := hall c (List.mem_cons_self c t)
  have htrim : jsTrimStart (c :: t) = c :: t :=
    dropWhile_eq_self_of_head (jsWs_of_isDig hc) t
  have htake : (c :: t).takeWhile isDig = c :: t := takeWhile_all hall
  simp only [parseIntM, htrim, signSplit_digit hc t, htake]
  rw [if_neg (by simp)]
  simp

theorem parseFloatM_format {a : Str} (h : actionNumFormat a = true) :
    ∃ q, parseFloatM a = some q := by
  simp only [actionNumFormat, Bool.and_eq_true, Bool.not_eq_true'] at h
  obtain ⟨hne, hmatch⟩ := h
  have hne2 : a.takeWhile isDig ≠ [] := ne_nil_of_isEmpty_eq_false hne
  split at hmatch
  next d1 d2 heq =>
    rw [Bool.and_eq_true] at hmatch
    have hane : a ≠ [] := by
      intro hnil
      rw [hnil] at hne2
      exact hne2 rfl
    obtain ⟨c, t, rfl⟩ := List.exists_cons_of_ne_nil hane
    have hc : isDig c = true := by
      cases hdc : isDig c with
      | false => rw [takeWhile_eq_nil_of_head hdc] at hne2; exact absurd rfl hne2
      | true => rfl
    have htrim : jsTrimStart (c :: t) = c :: t :=
      dropWhile_eq_self_of_head (jsWs_of_isDig hc) t
    have hfds : fracDigits ['.', d1, d2] = [d1, d2] := by
      rw [show fracDigits ['.', d1, d2] = [d1, d2].takeWhile isDig from rfl]
      refine takeWhile_all ?_
      intro x hx
      rcases List.mem_cons.mp hx with rfl | hx2
      · exact hmatch.1
      rcases List.mem_cons.mp hx2 with rfl | hx3
      · exact hmatch.2
      · simp at hx3
    refine Option.isSome_iff_exists.mp ?_
    simp only [parseFloatM, htrim, signSplit_digit hc t, heq, hfds]
    rw [if_neg fun hand => hne2 hand.1]
    rfl
  next => simp at hmatch

theorem bne_gt_iff {o : Ordering} : (o != Ordering.gt) = true ↔ o ≠ Ordering.gt := by
  cases o <;> decide

/-! ## The sort comparators as orders on validated identifiers -/

theorem leA_iff {a b : Action} {qa qb : ℚ} (ha : parseFloatM a.number = some qa)
    (hb : parseFloatM b.number = some qb) : leA a b = true ↔ qa ≤ qb := by
  have h1 : cmpActions a b = compare qa qb := by
    simp [cmpActions, ha, hb]
  rw [leA, h1, bne_gt_iff, ne_eq, compare_gt_iff_gt, gt_iff_lt, not_lt]

theorem leF_iff {f g : Feature} {qf qg : Int} (hf : parseIntM f.number = some qf)
    (hg : parseIntM g.number = some qg) : leF f g = true ↔ qf ≤ qg := by
  have h1 : cmpFeatures f g = compare qf qg := by
    simp [cmpFeatures, hf, hg]
  rw [leF, h1, bne_gt_iff, ne_eq, compare_gt_iff_gt, gt_iff_lt, not_lt]

theorem leA_total {a b : Action}
    (ha : (parseFloatM a.number).isSome = true) (hb : (parseFloatM b.number).isSome = true) :
    leA a b = true ∨ leA b a = true := by
  obtain ⟨qa, hqa⟩ := Option.isSome_iff_exists.mp ha
  obtain ⟨qb, hqb⟩ := Option.isSome_iff_exists.mp hb
  rcases le_total qa qb with h | h
  · exact Or.inl ((leA_iff hqa hqb).mpr h)
  · exact Or.inr ((leA_iff hqb hqa).mpr h)

theorem leA_trans {a b c : Action}
    (ha : (parseFloatM a.number).isSome = true) (hb : (parseFloatM b.number).isSome = true)
    (hc : (parseFloatM c.number).isSome = true)
    (hab : leA a b = true) (hbc : leA b c = true) : leA a c = true := by
  obtain ⟨qa, hqa⟩ := Option.isSome_iff_exists.mp ha
  obtain ⟨qb, hqb⟩ := Option.isSome_iff_exists.mp hb
  obtain ⟨qc, hqc⟩ := Option.isSome_iff_exists.mp hc
  exact (leA_iff hqa hqc).mpr (le_trans ((leA_iff hqa hqb).mp hab) ((leA_iff hqb hqc).mp hbc))

theorem leF_total {f g : Feature}
    (hf : (parseIntM f.number).isSome = true) (hg : (parseIntM g.number).isSome = true) :
    leF f g = true ∨ leF g f = true := by
  obtain ⟨qf, hqf⟩ := Option.isSome_iff_exists.mp hf
  obtain ⟨qg, hqg⟩ := Option.isSome_iff_exists.mp hg
  rcases le_total qf qg with h | h
  · exact Or.inl ((leF_iff hqf hqg).mpr h)
  · exact Or.inr ((leF_iff hqg hqf).mpr h)

theorem leF_trans {f g k : Feature}
    (hf : (parseIntM f.number).isSome = true) (hg : (parseIntM g.number).isSome = true)
    (hk : (parseIntM k.number).isSome = true)
    (hfg : leF f g = true) (hgk : leF g k = true) : leF f k = true := by
  obtain ⟨qf, hqf⟩ := Option.isSome_iff_exists.mp hf
  obtain ⟨qg, hqg⟩ := Option.isSome_iff_exists.mp hg
  obtain ⟨qk, hqk⟩ := Option.isSome_iff_exists.mp hk
  exact (leF_iff hqf hqk).mpr (le_trans ((leF_iff hqf hqg).mp hfg) ((leF_iff hqg hqk).mp hgk))

/-! ## The stable insertion sort -/

theorem insertBy_perm {α : Type} (le : α → α → Bool) (x : α) (l : List α) :
    (insertBy le x l).Perm (x :: l) := by
  induction l with
  | nil => exact List.Perm.refl _
  | cons y ys ih =>
    rw [insertBy]
    by_cases h : le x y = true
    · rw [if_pos h]
    · rw [if_neg h]
      exact (ih.cons y).trans (List.Perm.swap x y ys)

theorem sortByLe_perm {α : Type} (le : α → α → Bool) (l : List α) :
    (sortByLe le l).Perm l := by
  induction l with
  | nil => exact List.Perm.refl _
  | cons x t ih => exact (insertBy_perm le x (sortByLe le t)).trans (ih.cons x)

theorem pairwise_insertBy {α : Type} {le : α → α → Bool} {Q : α → Prop}
    (htot : ∀ a b, Q a → Q b → le a b = true ∨ le b a = true)
    (htrans : ∀ a b c, Q a → Q b → Q c → le a b = true → le b c = true → le a c = true)
    {x : α} {l : List α} (hx : Q x) (hl : ∀ y ∈ l, Q y)
    (hp : l.Pairwise fun a b => le a b = true) :
    (insertBy le x l).Pairwise fun a b => le a b = true := by
  induction l with
  | nil => simp [insertBy]
  | cons y ys ih =>
    rw [insertBy]
    rcases List.pairwise_cons.mp hp with ⟨hy, hys⟩
    by_cases h : le x y = true
    · rw [if_pos h]
      refine List.pairwise_cons.mpr ⟨?_, hp⟩
      intro z hz
      rcases List.mem_cons.mp hz with rfl | hz2
      · exact h
      · exact htrans x y z hx (hl y (List.mem_cons_self y ys))
          (hl z (List.mem_cons_of_mem y hz2)) h (hy z hz2)
    · rw [if_neg h]
      have hyx : le y x = true := by
        rcases htot x y hx (hl y (List.mem_cons_self y ys)) with h2 | h2
        · exact absurd h2 h
        · exact h2
      refine List.pairwise_cons.mpr
        ⟨?_, ih (fun z hz => hl z (List.mem_cons_of_mem y hz)) hys⟩
      intro z hz
      have hz2 := (insertBy_perm le x ys).mem_iff.mp hz
      rcases List.mem_cons.mp hz2 with rfl | hz3
      · exact hyx
      · exact hy z hz3

theorem pairwise_sortByLe {α : Type} {le : α → α → Bool} {Q : α → Prop}
    (htot : ∀ a b, Q a → Q b → le a b = true ∨ le b a = true)
    (htrans : ∀ a b c, Q a → Q b → Q c → le a b = true → le b c = true → le a c = true)
    {l : List α} (hl : ∀ y ∈ l, Q y) :
    (sortByLe le l).Pairwise fun a b => le a b = true := by
  induction l with
  | nil => simp [sortByLe]
  | cons x t ih =>
    rw [sortByLe]
    refine pairwise_insertBy htot htrans (hl x (List.mem_cons_self x t)) ?_ ?_
    · intro y hy
      exact hl y (List.mem_cons_of_mem x ((sortByLe_perm le t).mem_iff.mp hy))
    · exact ih fun y hy => hl y (List.mem_cons_of_mem x hy)

theorem sortByLe_eq_self {α : Type} {le : α → α → Bool} {l : List α}
    (hp : l.Pairwise fun a b => le a b = true) : sortByLe le l = l := by
  induction l with
  | nil => rfl
  | cons x t ih =>
    rcases List.pairwise_cons.mp hp with ⟨hx, ht⟩
    rw [sortByLe, ih ht]
    cases t with
    | nil => rfl
    | cons y ys => rw [insertBy, if_pos (hx y (List.mem_cons_self y ys))]

/-! ## What a successful sequence validation guarantees -/

theorem validateFeatureNumber_none {n : Str} (h : validateFeatureNumber n = none) :
    featureNumFormat n = true := by
  rw [validateFeatureNumber] at h
  by_cases h1 : n = []
  · rw [if_pos h1] at h
    exact absurd h (by simp)
  · rw [if_neg h1] at h
    cases hb : featureNumFormat n with
    | false => rw [if_pos (by rw [hb]; rfl)] at h; exact absurd h (by simp)
    | true => rfl

theorem validateActionNumber_none {a : Str} (h : validateActionNumber a = none) :
    actionNumFormat a = true := by
  rw [validateActionNumber] at h
  by_cases h1 : a = []
  · rw [if_pos h1] at h
    exact absurd h (by simp)
  · rw [if_neg h1] at h
    cases hb : actionNumFormat a with
    | false => rw [if_pos (by rw [hb]; rfl)] at h; exact absurd h (by simp)
    | true => rfl

theorem contains_false_iff {l : List Str} {a : Str} : l.contains a = false ↔ a ∉ l := by
  induction l with
  | nil => simp
  | cons b t ih =>
    rw [show (b :: t).contains a = (a == b || t.contains a) from rfl]
    constructor
    · intro h hm
      rw [Bool.or_eq_false_iff] at h
      rcases List.mem_cons.mp hm with rfl | hmt
      · rw [beq_self_eq_true] at h; exact absurd h.1 (by simp)
      · exact (ih.mp h.2) hmt
    · intro h
      rw [Bool.or_eq_false_iff]
      refine ⟨?_, ih.mpr fun hm => h (List.mem_cons_of_mem b hm)⟩
      rw [beq_eq_false_iff_ne]
      exact fun he => h (he ▸ List.mem_cons_self b t)

theorem actionSeqLoop_success {fn : Str} {as : List Str} :
    ∀ {seen global : List Str}, (actionSeqLoop fn as seen global).1 = [] →
      ∀ a ∈ as, actionNumFormat a = true := by
  induction as with
  | nil => intro seen global h a ha; simp at ha
  | cons a t ih =>
    intro seen global h b hb
    rw [actionSeqLoop] at h
    cases hv : validateActionNumber a with
    | some e =>
      cases hrec : actionSeqLoop fn t seen global with
      | mk es g =>
        simp only [hv, hrec] at h
        simp at h
    | none =>
      cases hrec : actionSeqLoop fn t (a :: seen) (a :: global) with
      | mk es g =>
        simp only [hv, hrec] at h
        rw [List.append_eq_nil, List.append_eq_nil, List.append_eq_nil] at h
        rcases List.mem_cons.mp hb with heq | hbt
        · subst heq
          exact validateActionNumber_none hv
        · exact ih (by rw [hrec]; exact h.2) b hbt

theorem featureSeqLoop_success {L : List (Str × List Str)} :
    ∀ {seenF seenA : List Str}, featureSeqLoop L seenF seenA = [] →
      (∀ p ∈ L, featureNumFormat p.1 = true ∧ p.1 ∉ seenF ∧
        ∀ a ∈ p.2, actionNumFormat a = true) ∧
      (L.map Prod.fst).Nodup := by
  induction L with
  | nil =>
    intro seenF seenA h
    exact ⟨fun p hp => absurd hp (by simp), by simp⟩
  | cons q t ih =>
    intro seenF seenA h
    obtain ⟨n, as⟩ := q
    rw [featureSeqLoop] at h
    cases hv : validateFeatureNumber n with
    | some e =>
      simp only [hv] at h
      simp at h
    | none =>
      cases hva : validateActionSequence as seenA n with
      | mk aErrs seenA2 =>
        simp only [hv, hva] at h
        rw [List.append_eq_nil, List.append_eq_nil] at h
        obtain ⟨⟨hdup, haerrs⟩, hrest⟩ := h
        have hcont : seenF.contains n = false := by
          cases hcc : seenF.contains n with
          | false => rfl
          | true => rw [if_pos (by rw [hcc])] at hdup; exact absurd hdup (by simp)
        have hnotin : n ∉ seenF := contains_false_iff.mp hcont
        have hacts : ∀ a ∈ as, actionNumFormat a = true := by
          have h1 : (actionSeqLoop n as [] seenA).1 = [] := by
            rw [show actionSeqLoop n as [] seenA = (aErrs, seenA2) from hva]
            exact haerrs
          exact actionSeqLoop_success h1
        obtain ⟨htail, hnd⟩ := ih hrest
        refine ⟨?_, ?_⟩
        · intro p hp
          rcases List.mem_cons.mp hp with heq | hpt
          · subst heq
            exact ⟨validateFeatureNumber_none hv, hnotin, hacts⟩
          · obtain ⟨h1, h2, h3⟩ := htail p hpt
            exact ⟨h1, fun hm => h2 (List.mem_cons_of_mem n hm), h3⟩
        · rw [List.map_cons, List.nodup_cons]
          refine ⟨?_, hnd⟩
          intro hm
          obtain ⟨p, hpt, hpn⟩ := List.mem_map.mp hm
          exact (htail p hpt).2.1 (hpn ▸ List.mem_cons_self n seenF)

theorem inputSeqPairs_map_fst (P : List InputFeature) :
    (inputSeqPairs P).map Prod.fst = P.map fun g => g.number := by
  rw [inputSeqPairs, List.map_map]
  rfl

theorem featureSeqPairs_map_fst (fs : List Feature) :
    (featureSeqPairs fs).map Prod.fst = fs.map fun f => f.number := by
  rw [featureSeqPairs, List.map_map]
  rfl

theorem featureSeqPairs_facts {fs : List Feature}
    (h : validateFeatureSequence (featureSeqPairs fs) = []) :
    (∀ f ∈ fs, featureNumFormat f.number = true ∧
      ∀ a ∈ f.actions, actionNumFormat a.number = true) ∧
    (fs.map fun f => f.number).Nodup := by
  obtain ⟨hall, hnd⟩ :=
    featureSeqLoop_success (show featureSeqLoop (featureSeqPairs fs) [] [] = [] from h)
  refine ⟨?_, by rw [← featureSeqPairs_map_fst]; exact hnd⟩
  intro f hf
  have hp : ((f.number, f.actions.map fun a => a.number) : Str × List Str) ∈ featureSeqPairs fs :=
    List.mem_map.mpr ⟨f, hf, rfl⟩
  obtain ⟨h1, _, h3⟩ := hall _ hp
  refine ⟨h1, ?_⟩
  intro a ha
  exact h3 (a.number) (List.mem_map.mpr ⟨a, ha, rfl⟩)

theorem inputSeqPairs_facts {P : List InputFeature}
    (h : validateFeatureSequence (inputSeqPairs P) = []) :
    (∀ g ∈ P, featureNumFormat g.number = true ∧
      ∀ a ∈ g.actions, actionNumFormat a.number = true) ∧
    (P.map fun g => g.number).Nodup := by
  obtain ⟨hall, hnd⟩ :=
    featureSeqLoop_success (show featureSeqLoop (inputSeqPairs P) [] [] = [] from h)
  refine ⟨?_, by rw [← inputSeqPairs_map_fst]; exact hnd⟩
  intro g hg
  have hp : ((g.number, g.actions.map fun a => a.number) : Str × List Str) ∈ inputSeqPairs P :=
    List.mem_map.mpr ⟨g, hg, rfl⟩
  obtain ⟨h1, _, h3⟩ := hall _ hp
  refine ⟨h1, ?_⟩
  intro a ha
  exact h3 (a.number) (List.mem_map.mpr ⟨a, ha, rfl⟩)

/-! ## Structure of the merge loop -/

def tripleOf (f : Feature) : Str × Str × Str := (f.number, f.title, f.description)

theorem foldlM_nil_exg {ε σ α : Type} (f : σ → α → Except ε σ) (b : σ) :
    List.foldlM f b ([] : List α) = .ok b := rfl

theorem foldlM_cons_exg {ε σ α : Type} (f : σ → α → Except ε σ) (b : σ) (a : α) (t : List α) :
    List.foldlM f b (a :: t) = f b a >>= fun s => List.foldlM f s t := rfl

theorem find_cons_pos {f : Feature} {t : List Feature} {n : Str}
    (hb : (f.number == n) = true) : findFeature (f :: t) n = some f := by
  rw [findFeature, List.find?_cons_of_pos (p := fun g => g.number == n) t hb]

theorem find_cons_neg {f : Feature} {t : List Feature} {n : Str}
    (hb : ¬ (f.number == n) = true) : findFeature (f :: t) n = findFeature t n := by
  rw [findFeature, List.find?_cons_of_neg (p := fun g => g.number == n) t hb]
  rfl

theorem replaceFirst_of_find {fs : List Feature} {n : Str} {ex nf : Feature}
    (hfind : findFeature fs n = some ex) (htr : tripleOf nf = tripleOf ex) :
    (replaceFirstFeature fs n nf).map tripleOf = fs.map tripleOf := by
  induction fs with
  | nil => simp [findFeature] at hfind
  | cons f t ih =>
    rw [replaceFirstFeature]
    by_cases hb : (f.number == n) = true
    · rw [if_pos hb]
      have hexf : ex = f := by
        rw [find_cons_pos hb] at hfind
        injection hfind with h2
        exact h2.symm
      subst hexf
      rw [List.map_cons, List.map_cons, htr]
    · rw [if_neg hb]
      rw [find_cons_neg hb] at hfind
      rw [List.map_cons, List.map_cons, ih hfind]

theorem mergeFeatureStep_triples {fs : List Feature} {g : InputFeature} {fs2 : List Feature}
    (h : mergeFeatureStep fs g = .ok fs2) :
    ∃ app, fs2.map tripleOf = fs.map tripleOf ++ app := by
  rw [mergeFeatureStep] at h
  cases hfind : findFeature fs g.number with
  | some ex =>
    simp only [hfind] at h
    by_cases hd : ex.title ≠ g.title ∨ ex.description ≠ g.description
    · rw [if_pos hd] at h
      exact absurd h (by simp)
    · rw [if_neg hd] at h
      injection h with h2
      refine ⟨[], ?_⟩
      rw [List.append_nil, ← h2]
      exact replaceFirst_of_find hfind rfl
  | none =>
    simp only [hfind] at h
    injection h with h2
    refine ⟨[(g.number, g.title, g.description)], ?_⟩
    rw [← h2, List.map_append]
    rfl

theorem mergeLoop_triples {P : List InputFeature} :
    ∀ {fs M : List Feature}, mergeLoop fs P = .ok M →
      ∃ app, M.map tripleOf = fs.map tripleOf ++ app := by
  induction P with
  | nil =>
    intro fs M h
    rw [mergeLoop, foldlM_nil_exg] at h
    injection h with h2
    exact ⟨[], by rw [h2, List.append_nil]⟩
  | cons g t ih =>
    intro fs M h
    rw [mergeLoop, foldlM_cons_exg] at h
    cases hstep : mergeFeatureStep fs g with
    | error e =>
      rw [hstep, exbind_err] at h
      exact absurd h (by simp)
    | ok fs2 =>
      rw [hstep, exbind_ok] at h
      obtain ⟨app1, h1⟩ := mergeFeatureStep_triples hstep
      obtain ⟨app2, h2⟩ := ih (show mergeLoop fs2 t = .ok M from h)
      exact ⟨app1 ++ app2, by rw [h2, h1, List.append_assoc]⟩

theorem findFeature_of_triples {n : Str} {ex : Feature} {app : List (Str × Str × Str)} :
    ∀ {fs fs2 : List Feature}, fs2.map tripleOf = fs.map tripleOf ++ app →
      findFeature fs n = some ex →
      ∃ ex2, findFeature fs2 n = some ex2 ∧ ex2.title = ex.title ∧
        ex2.description = ex.description := by
  intro fs
  induction fs with
  | nil => intro fs2 _ hfind; simp [findFeature] at hfind
  | cons f t ih =>
    intro fs2 happ hfind
    cases fs2 with
    | nil => simp at happ
    | cons f2 t2 =>
      rw [List.map_cons, List.map_cons, List.cons_append] at happ
      injection happ with htr htail
      have hnum : f2.number = f.number := congrArg Prod.fst htr
      have htl : f2.title = f.title := congrArg (fun p => p.2.1) htr
      have hds : f2.description = f.description := congrArg (fun p => p.2.2) htr
      by_cases hb : (f.number == n) = true
      · refine ⟨f2, find_cons_pos (by rw [hnum]; exact hb), ?_, ?_⟩
        · have hexf : ex = f := by
            rw [find_cons_pos hb] at hfind
            injection hfind with h2
            exact h2.symm
          rw [htl, hexf]
        · have hexf : ex = f := by
            rw [find_cons_pos hb] at hfind
            injection hfind with h2
            exact h2.symm
          rw [hds, hexf]
      · rw [find_cons_neg hb] at hfind
        obtain ⟨ex2, h1, h2, h3⟩ := ih htail hfind
        refine ⟨ex2, ?_, h2, h3⟩
        rw [find_cons_neg (by rw [hnum]; exact hb)]
        exact h1

theorem mergeFeatureStep_error_shape {fs : List Feature} {g : InputFeature} {e : MergeError}
    (h : mergeFeatureStep fs g = .error e) :
    ∃ a b c d e2, e = .immutableViolation a b c d e2 := by
  rw [mergeFeatureStep] at h
  cases hfind : findFeature fs g.number with
  | some ex =>
    simp only [hfind] at h
    by_cases hd : ex.title ≠ g.title ∨ ex.description ≠ g.description
    · rw [if_pos hd] at h
      injection h with h2
      exact ⟨_, _, _, _, _, h2.symm⟩
    · rw [if_neg hd] at h
      exact absurd h (by simp)
  | none =>
    simp only [hfind] at h
    exact absurd h (by simp)

theorem mergeLoop_immutable {P : List InputFeature} :
    ∀ {fs : List Feature},
      (∃ g ∈ P, ∃ ex, findFeature fs g.number = some ex ∧
        (ex.title ≠ g.title ∨ ex.description ≠ g.description)) →
      ∃ a b c d e2, mergeLoop fs P = .error (.immutableViolation a b c d e2) := by
  induction P with
  | nil =>
    intro fs h
    obtain ⟨g, hg, -⟩ := h
    simp at hg
  | cons g0 t ih =>
    intro fs h
    cases hstep : mergeFeatureStep fs g0 with
    | error e =>
      obtain ⟨a, b, c, d, e2, he⟩ := mergeFeatureStep_error_shape hstep
      refine ⟨a, b, c, d, e2, ?_⟩
      rw [mergeLoop, foldlM_cons_exg, hstep, exbind_err, he]
    | ok fs2 =>
      obtain ⟨g, hg, ex, hfind, hdiff⟩ := h
      rcases List.mem_cons.mp hg with heq | hgt
      · exfalso
        subst heq
        rw [mergeFeatureStep] at hstep
        simp only [hfind] at hstep
        rw [if_pos hdiff] at hstep
        exact absurd hstep (by simp)
      · obtain ⟨app, happ⟩ := mergeFeatureStep_triples hstep
        obtain ⟨ex2, hfind2, ht2, hd2⟩ := findFeature_of_triples happ hfind
        have hdiff2 : ex2.title ≠ g.title ∨ ex2.description ≠ g.description := by
          rcases hdiff with hd | hd
          · exact Or.inl (by rw [ht2]; exact hd)
          · exact Or.inr (by rw [hd2]; exact hd)
        obtain ⟨a, b, c, d, e2, he⟩ := ih ⟨g, hgt, ex2, hfind2, hdiff2⟩
        refine ⟨a, b, c, d, e2, ?_⟩
        rw [mergeLoop, foldlM_cons_exg, hstep, exbind_ok]
        exact he

theorem replaceFirst_mem {fs : List Feature} {n : Str} {ex : Feature} (nf : Feature)
    (hfind : findFeature fs n = some ex) :
    nf ∈ replaceFirstFeature fs n nf := by
  induction fs with
  | nil => simp [findFeature] at hfind
  | cons f t ih =>
    rw [replaceFirstFeature]
    by_cases hb : (f.number == n) = true
    · rw [if_pos hb]
      exact List.mem_cons_self _ _
    · rw [if_neg hb]
      rw [find_cons_neg hb] at hfind
      exact List.mem_cons_of_mem f (ih hfind)

theorem replaceFirst_mem_of_ne {fs : List Feature} {n : Str} {nf f : Feature}
    (hf : f ∈ fs) (hne : f.number ≠ n) : f ∈ replaceFirstFeature fs n nf := by
  induction fs with
  | nil => simp at hf
  | cons g t ih =>
    rw [replaceFirstFeature]
    by_cases hb : (g.number == n) = true
    · rw [if_pos hb]
      rcases List.mem_cons.mp hf with heq | hft
      · exact absurd (heq ▸ beq_iff_eq.mp hb) hne
      · exact List.mem_cons_of_mem nf hft
    · rw [if_neg hb]
      rcases List.mem_cons.mp hf with heq | hft
      · exact heq ▸ List.mem_cons_self g _
      · exact List.mem_cons_of_mem g (ih hft)

theorem mergeFeatureStep_mem_of_ne {fs fs2 : List Feature} {g : InputFeature} {f : Feature}
    (h : mergeFeatureStep fs g = .ok fs2) (hf : f ∈ fs) (hne : f.number ≠ g.number) :
    f ∈ fs2 := by
  rw [mergeFeatureStep] at h
  cases hfind : findFeature fs g.number with
  | some ex =>
    simp only [hfind] at h
    by_cases hd : ex.title ≠ g.title ∨ ex.description ≠ g.description
    · rw [if_pos hd] at h
      exact absurd h (by simp)
    · rw [if_neg hd] at h
      injection h with h2
      rw [← h2]
      exact replaceFirst_mem_of_ne hf hne
  | none =>
    simp only [hfind] at h
    injection h with h2
    rw [← h2]
    exact List.mem_append.mpr (Or.inl hf)

theorem mergeLoop_mem_of_ne {P : List InputFeature} :
    ∀ {fs M : List Feature} {f : Feature}, mergeLoop fs P = .ok M → f ∈ fs →
      (∀ g ∈ P, f.number ≠ g.number) → f ∈ M := by
  induction P with
  | nil =>
    intro fs M f h hf _
    rw [mergeLoop, foldlM_nil_exg] at h
    injection h with h2
    exact h2 ▸ hf
  | cons g t ih =>
    intro fs M f h hf hne
    rw [mergeLoop, foldlM_cons_exg] at h
    cases hstep : mergeFeatureStep fs g with
    | error e =>
      rw [hstep, exbind_err] at h
      exact absurd h (by simp)
    | ok fs2 =>
      rw [hstep, exbind_ok] at h
      refine ih (show mergeLoop fs2 t = .ok M from h)
        (mergeFeatureStep_mem_of_ne hstep hf (hne g (List.mem_cons_self g t))) ?_
      intro g2 hg2
      exact hne g2 (List.mem_cons_of_mem g hg2)

theorem findFeature_unique {fs : List Feature} {f2 : Feature}
    (hnd : (fs.map fun f => f.number).Nodup) (hmem : f2 ∈ fs) :
    findFeature fs f2.number = some f2 := by
  induction fs with
  | nil => simp at hmem
  | cons f t ih =>
    rw [List.map_cons, List.nodup_cons] at hnd
    rcases List.mem_cons.mp hmem with heq | hmt
    · subst heq
      exact find_cons_pos (beq_self_eq_true _)
    · have hne : f.number ≠ f2.number := by
        intro he
        exact hnd.1 (he ▸ List.mem_map.mpr ⟨f2, hmt, rfl⟩)
      rw [find_cons_neg (by rw [beq_eq_false_iff_ne.mpr hne]; exact fun hc => nomatch hc)]
      exact ih hnd.2 hmt

theorem replaceFirst_find_self {fs : List Feature} {n : Str} {ex : Feature}
    (hfind : findFeature fs n = some ex) : replaceFirstFeature fs n ex = fs := by
  induction fs with
  | nil => rfl
  | cons f t ih =>
    rw [replaceFirstFeature]
    by_cases hb : (f.number == n) = true
    · rw [if_pos hb]
      have hexf : ex = f := by
        rw [find_cons_pos hb] at hfind
        injection hfind with h2
        exact h2.symm
      rw [hexf]
    · rw [if_neg hb]
      rw [find_cons_neg hb] at hfind
      rw [ih hfind]

/-! ## The action merge inside one feature -/

theorem mergeActions_cons (acc : List Action) (a : InputAction) (t : List InputAction) :
    mergeActions acc (a :: t) =
      mergeActions
        (if acc.any fun x => x.number == a.number then acc
         else sortActions (acc ++ [⟨a.number, a.description, .pending⟩])) t := rfl

theorem mem_mergeActions_of_mem {inp : List InputAction} :
    ∀ {acc : List Action} {x : Action}, x ∈ acc → x ∈ mergeActions acc inp := by
  induction inp with
  | nil => intro acc x hx; exact hx
  | cons a t ih =>
    intro acc x hx
    rw [mergeActions_cons]
    by_cases hany : (acc.any fun y => y.number == a.number) = true
    · rw [if_pos hany]
      exact ih hx
    · rw [if_neg hany]
      refine ih ?_
      exact (sortByLe_perm leA _).mem_iff.mpr (List.mem_append.mpr (Or.inl hx))

theorem mergeActions_covers {inp : List InputAction} :
    ∀ {acc : List Action} {a : InputAction}, a ∈ inp →
      ∃ y ∈ mergeActions acc inp, y.number = a.number := by
  induction inp with
  | nil => intro acc a ha; simp at ha
  | cons b t ih =>
    intro acc a ha
    rw [mergeActions_cons]
    rcases List.mem_cons.mp ha with heq | hat
    · subst heq
      by_cases hany : (acc.any fun y => y.number == a.number) = true
      · rw [if_pos hany]
        obtain ⟨x, hx, hxn⟩ := List.any_eq_true.mp hany
        exact ⟨x, mem_mergeActions_of_mem hx, beq_iff_eq.mp hxn⟩
      · rw [if_neg hany]
        refine ⟨⟨a.number, a.description, .pending⟩, ?_, rfl⟩
        refine mem_mergeActions_of_mem ?_
        exact (sortByLe_perm leA _).mem_iff.mpr
          (List.mem_append.mpr (Or.inr (List.mem_cons_self _ _)))
    · exact ih hat

theorem mergeActions_all_present {inp : List InputAction} :
    ∀ {acc : List Action}, (∀ a ∈ inp, ∃ y ∈ acc, y.number = a.number) →
      mergeActions acc inp = acc := by
  induction inp with
  | nil => intro acc _; rfl
  | cons b t ih =>
    intro acc hall
    have hany : (acc.any fun x => x.number == b.number) = true := by
      obtain ⟨y, hy, hyn⟩ := hall b (List.mem_cons_self b t)
      exact List.any_eq_true.mpr ⟨y, hy, by rw [hyn]; exact beq_self_eq_true _⟩
    rw [mergeActions_cons, if_pos hany]
    exact ih fun a ha => hall a (List.mem_cons_of_mem b ha)

theorem mergeActions_sorted_shape {inp : List InputAction} :
    ∀ {l : List Action}, ∃ l2, mergeActions (sortActions l) inp = sortActions l2 := by
  induction inp with
  | nil => intro l; exact ⟨l, rfl⟩
  | cons a t ih =>
    intro l
    rw [mergeActions_cons]
    by_cases hany : ((sortActions l).any fun x => x.number == a.number) = true
    · rw [if_pos hany]
      exact ih
    · rw [if_neg hany]
      exact ih

theorem mergeActions_new_shape {inp : List InputAction} :
    ∀ {acc : List Action}, (∃ a ∈ inp, ¬ ∃ x ∈ acc, x.number = a.number) →
      ∃ l, mergeActions acc inp = sortActions l := by
  induction inp with
  | nil =>
    intro acc h
    obtain ⟨a, ha, -⟩ := h
    simp at ha
  | cons b t ih =>
    intro acc h
    obtain ⟨a, ha, hnew⟩ := h
    rw [mergeActions_cons]
    by_cases hany : (acc.any fun x => x.number == b.number) = true
    · rw [if_pos hany]
      rcases List.mem_cons.mp ha with heq | hat
      · exfalso
        subst heq
        obtain ⟨x, hx, hxn⟩ := List.any_eq_true.mp hany
        exact hnew ⟨x, hx, beq_iff_eq.mp hxn⟩
      · exact ih ⟨a, hat, hnew⟩
    · rw [if_neg hany]
      exact mergeActions_sorted_shape

/-! ## Postcondition of a successful merge -/

theorem mergeLoop_post {P : List InputFeature} :
    ∀ {fs M : List Feature}, mergeLoop fs P = .ok M →
      ((P.map fun g => g.number).Nodup) →
      ∀ g ∈ P, ∃ f2 ∈ M, f2.number = g.number ∧ f2.title = g.title ∧
        f2.description = g.description ∧
        ∀ a ∈ g.actions, ∃ y ∈ f2.actions, y.number = a.number := by
  induction P with
  | nil => intro fs M h hnd g hg; simp at hg
  | cons g0 t ih =>
    intro fs M h hnd g hg
    rw [mergeLoop, foldlM_cons_exg] at h
    cases hstep : mergeFeatureStep fs g0 with
    | error e =>
      rw [hstep, exbind_err] at h
      exact absurd h (by simp)
    | ok fs2 =>
      rw [hstep, exbind_ok] at h
      rw [List.map_cons, List.nodup_cons] at hnd
      rcases List.mem_cons.mp hg with heq | hgt
      · subst heq
        have hlater : ∀ g2 ∈ t, g.number ≠ g2.number := by
          intro g2 hg2 he
          exact hnd.1 (he ▸ List.mem_map.mpr ⟨g2, hg2, rfl⟩)
        rw [mergeFeatureStep] at hstep
        cases hfind : findFeature fs g.number with
        | some ex =>
          simp only [hfind] at hstep
          by_cases hd : ex.title ≠ g.title ∨ ex.description ≠ g.description
          · rw [if_pos hd] at hstep
            exact absurd hstep (by simp)
          · rw [if_neg hd] at hstep
            push_neg at hd
            injection hstep with h2
            have hnum : ex.number = g.number := by
              have hfs := List.find?_some hfind
              exact beq_iff_eq.mp hfs
            have hmem2 :
                ({ ex with actions := mergeActions ex.actions g.actions } : Feature) ∈ fs2 := by
              rw [← h2]
              exact replaceFirst_mem _ hfind
            refine ⟨{ ex with actions := mergeActions ex.actions g.actions }, ?_, hnum, hd.1, hd.2, ?_⟩
            · refine mergeLoop_mem_of_ne (show mergeLoop fs2 t = .ok M from h) hmem2 ?_
              intro g2 hg2
              show ex.number ≠ g2.number
              rw [hnum]
              exact hlater g2 hg2
            · intro a ha
              exact mergeActions_covers ha
        | none =>
          simp only [hfind] at hstep
          injection hstep with h2
          have hmem2 :
              (⟨g.number, g.title, g.description,
                g.actions.map fun a => ⟨a.number, a.description, .pending⟩⟩ : Feature) ∈ fs2 := by
            rw [← h2]
            exact List.mem_append.mpr (Or.inr (List.mem_cons_self _ _))
          refine ⟨⟨g.number, g.title, g.description,
            g.actions.map fun a => ⟨a.number, a.description, .pending⟩⟩, ?_, rfl, rfl, rfl, ?_⟩
          · refine mergeLoop_mem_of_ne (show mergeLoop fs2 t = .ok M from h) hmem2 ?_
            intro g2 hg2
            exact hlater g2 hg2
          · intro a ha
            exact ⟨⟨a.number, a.description, .pending⟩,
              List.mem_map.mpr ⟨a, ha, rfl⟩, rfl⟩
      · exact ih (show mergeLoop fs2 t = .ok M from h) hnd.2 g hgt

/-! ## Re-running the merge on its own output -/

theorem mergeFeatureStep_self {fs : List Feature} {g : InputFeature} {f2 : Feature}
    (hfind : findFeature fs g.number = some f2)
    (ht : f2.title = g.title) (hd : f2.description = g.description)
    (hcov : ∀ a ∈ g.actions, ∃ y ∈ f2.actions, y.number = a.number) :
    mergeFeatureStep fs g = .ok fs := by
  rw [mergeFeatureStep]
  simp only [hfind]
  rw [if_neg (by push_neg; exact ⟨ht, hd⟩)]
  rw [mergeActions_all_present hcov]
  rw [show ({ f2 with actions := f2.actions } : Feature) = f2 from rfl]
  rw [replaceFirst_find_self hfind]

theorem mergeLoop_self {P : List InputFeature} :
    ∀ {fs : List Feature},
      (∀ g ∈ P, ∃ f2, findFeature fs g.number = some f2 ∧ f2.title = g.title ∧
        f2.description = g.description ∧
        ∀ a ∈ g.actions, ∃ y ∈ f2.actions, y.number = a.number) →
      mergeLoop fs P = .ok fs := by
  induction P with
  | nil => intro fs _; rfl
  | cons g t ih =>
    intro fs h
    obtain ⟨f2, hfind, ht, hd, hcov⟩ := h g (List.mem_cons_self g t)
    rw [mergeLoop, foldlM_cons_exg, mergeFeatureStep_self hfind ht hd hcov, exbind_ok]
    exact ih fun g2 hg2 => h g2 (List.mem_cons_of_mem g hg2)

/-! ## Evaluating the create transform -/

theorem transform_ok_elim {P : List InputFeature} {cur : Option Roadmap} {u : UpdateRes String}
    (h : createRoadmapTransform P cur = .ok u) :
    ∃ s, structuralPass P = .ok s ∧
      s ++ validateFeatureSequence (inputSeqPairs P) = [] ∧
      ∃ M, mergeLoop ((cur.getD ⟨[]⟩).features) P = .ok M ∧
        zeroActionCheck (sortFeatures M) = none ∧
        validateFeatureSequence (featureSeqPairs (sortFeatures M)) = [] ∧
        u.roadmap = ⟨sortFeatures M⟩ := by
  rw [createRoadmapTransform] at h
  cases hs : structuralPass P with
  | error e =>
    rw [hs, exbindd_err] at h
    exact absurd h (by simp)
  | ok s =>
    rw [hs, exbindd_ok] at h
    by_cases he : s ++ validateFeatureSequence (inputSeqPairs P) ≠ []
    · rw [if_pos he] at h
      exact absurd h (by simp)
    · rw [if_neg he] at h
      push_neg at he
      cases hm : mergeLoop ((cur.getD ⟨[]⟩).features) P with
      | error e =>
        rw [hm, exbindd_err] at h
        exact absurd h (by simp)
      | ok M =>
        rw [hm, exbindd_ok] at h
        cases hz : zeroActionCheck (sortFeatures M) with
        | some n =>
          simp only [hz] at h
          exact absurd h (by simp)
        | none =>
          simp only [hz] at h
          by_cases hf : validateFeatureSequence (featureSeqPairs (sortFeatures M)) ≠ []
          · rw [if_pos hf] at h
            exact absurd h (by simp)
          · rw [if_neg hf] at h
            push_neg at hf
            injection h with h2
            exact ⟨s, rfl, he, M, rfl, hz, hf, by rw [← h2]⟩

theorem transform_ok_intro {P : List InputFeature} {cur : Option Roadmap}
    {s : List ValidationError} {M : List Feature}
    (hs : structuralPass P = .ok s)
    (he : s ++ validateFeatureSequence (inputSeqPairs P) = [])
    (hm : mergeLoop ((cur.getD ⟨[]⟩).features) P = .ok M)
    (hz : zeroActionCheck (sortFeatures M) = none)
    (hf : validateFeatureSequence (featureSeqPairs (sortFeatures M)) = []) :
    createRoadmapTransform P cur =
      .ok { roadmap := ⟨sortFeatures M⟩,
            buildResult := fun _ => mergeSummary cur.isSome (sortFeatures M) } := by
  rw [createRoadmapTransform, hs, exbindd_ok,
    if_neg (by rw [he]; exact fun hc => hc rfl), hm, exbindd_ok]
  simp only [hz]
  rw [if_neg (by rw [hf]; exact fun hc => hc rfl)]

theorem transform_merge_error {P : List InputFeature} {cur : Option Roadmap}
    {s : List ValidationError} {err : MergeError}
    (hs : structuralPass P = .ok s)
    (he : s ++ validateFeatureSequence (inputSeqPairs P) = [])
    (hm : mergeLoop ((cur.getD ⟨[]⟩).features) P = .error err) :
    createRoadmapTransform P cur = .error err := by
  rw [createRoadmapTransform, hs, exbindd_ok,
    if_neg (by rw [he]; exact fun hc => hc rfl), hm, exbindd_err]

theorem findFeature_number {fs : List Feature} {n : Str} {ex : Feature}
    (h : findFeature fs n = some ex) : ex.number = n := by
  rw [findFeature] at h
  have h2 := List.find?_some h
  exact beq_iff_eq.mp h2

theorem findFeature_append_left {fs : List Feature} {n : Str} {ex : Feature}
    (h : findFeature fs n = some ex) (rest : List Feature) :
    findFeature (fs ++ rest) n = some ex := by
  induction fs with
  | nil => simp [findFeature] at h
  | cons f t ih =>
    rw [List.cons_append]
    by_cases hb : (f.number == n) = true
    · rw [find_cons_pos hb]
      rw [find_cons_pos hb] at h
      exact h
    · rw [find_cons_neg hb]
      rw [find_cons_neg hb] at h
      exact ih h

theorem replaceFirst_find_other {fs : List Feature} {n m : Str} {nf ex : Feature}
    (hnm : m ≠ n) (hnf : nf.number = m) (h : findFeature fs n = some ex) :
    findFeature (replaceFirstFeature fs m nf) n = some ex := by
  induction fs with
  | nil => simp [findFeature] at h
  | cons f t ih =>
    rw [replaceFirstFeature]
    by_cases hb : (f.number == m) = true
    · rw [if_pos hb]
      have hfm : f.number = m := beq_iff_eq.mp hb
      have hfn : ¬ (f.number == n) = true := by
        rw [beq_eq_false_iff_ne.mpr (hfm ▸ hnm)]
        exact fun hc => nomatch hc
      rw [find_cons_neg hfn] at h
      rw [find_cons_neg (by rw [beq_eq_false_iff_ne.mpr (hnf ▸ hnm)]; exact fun hc => nomatch hc)]
      exact h
    · rw [if_neg hb]
      by_cases hn : (f.number == n) = true
      · rw [find_cons_pos hn]
        rw [find_cons_pos hn] at h
        exact h
      · rw [find_cons_neg hn]
        rw [find_cons_neg hn] at h
        exact ih h

theorem mergeFeatureStep_find_other {fs fs2 : List Feature} {g : InputFeature} {n : Str}
    {ex : Feature} (h : mergeFeatureStep fs g = .ok fs2) (hne : g.number ≠ n)
    (hfind : findFeature fs n = some ex) : findFeature fs2 n = some ex := by
  rw [mergeFeatureStep] at h
  cases hfind0 : findFeature fs g.number with
  | some ex0 =>
    simp only [hfind0] at h
    by_cases hd : ex0.title ≠ g.title ∨ ex0.description ≠ g.description
    · rw [if_pos hd] at h
      exact absurd h (by simp)
    · rw [if_neg hd] at h
      injection h with h2
      rw [← h2]
      refine replaceFirst_find_other hne ?_ hfind
      have h3 : ex0.number = g.number := findFeature_number hfind0
      exact h3
  | none =>
    simp only [hfind0] at h
    injection h with h2
    rw [← h2]
    exact findFeature_append_left hfind _

theorem mergeLoop_post_existing {P : List InputFeature} :
    ∀ {fs M : List Feature}, mergeLoop fs P = .ok M →
      ((P.map fun g => g.number).Nodup) →
      ∀ g ∈ P, ∀ ex, findFeature fs g.number = some ex →
        ({ ex with actions := mergeActions ex.actions g.actions } : Feature) ∈ M := by
  induction P with
  | nil => intro fs M h hnd g hg; simp at hg
  | cons g0 t ih =>
    intro fs M h hnd g hg ex hfind
    rw [mergeLoop, foldlM_cons_exg] at h
    cases hstep : mergeFeatureStep fs g0 with
    | error e =>
      rw [hstep, exbind_err] at h
      exact absurd h (by simp)
    | ok fs2 =>
      rw [hstep, exbind_ok] at h
      rw [List.map_cons, List.nodup_cons] at hnd
      rcases List.mem_cons.mp hg with heq | hgt
      · subst heq
        have hnum : ex.number = g.number := findFeature_number hfind
        have hmem2 : ({ ex with actions := mergeActions ex.actions g.actions } : Feature) ∈ fs2 := by
          rw [mergeFeatureStep] at hstep
          simp only [hfind] at hstep
          by_cases hd : ex.title ≠ g.title ∨ ex.description ≠ g.description
          · rw [if_pos hd] at hstep
            exact absurd hstep (by simp)
          · rw [if_neg hd] at hstep
            injection hstep with h2
            rw [← h2]
            exact replaceFirst_mem _ hfind
        refine mergeLoop_mem_of_ne (show mergeLoop fs2 t = .ok M from h) hmem2 ?_
        intro g2 hg2
        show ex.number ≠ g2.number
        rw [hnum]
        intro he2
        exact hnd.1 (he2 ▸ List.mem_map.mpr ⟨g2, hg2, rfl⟩)
      · refine ih (show mergeLoop fs2 t = .ok M from h) hnd.2 g hgt ex ?_
        refine mergeFeatureStep_find_other hstep ?_ hfind
        intro he2
        exact hnd.1 (he2 ▸ List.mem_map.mpr ⟨g, hgt, rfl⟩)

theorem eq_of_mem_nodup_number {fs : List Feature}
    (hnd : (fs.map fun f => f.number).Nodup) {a b : Feature}
    (ha : a ∈ fs) (hb : b ∈ fs) (he : a.number = b.number) : a = b := by
  have h1 : findFeature fs a.number = some a := findFeature_unique hnd ha
  have h2 : findFeature fs b.number = some b := findFeature_unique hnd hb
  rw [he, h2] at h1
  injection h1 with h3
  exact h3.symm

/-- C3 counterexample: a successful merge whose result violates the claimed
ordering invariant.  A brand-new feature keeps its proposed actions in input
order — the new-feature branch maps the proposals directly without sorting —
so proposing actions 1.02 before 1.01 yields a roadmap whose first feature
stores 1.02 before 1.01, even though 1.01 has the smaller numeric value. -/
theorem C3_counterexample :
    (createRoadmapTransform
        [⟨str ("1"), str ("T"), str ("D"),
          [⟨str ("1.02"), str ("b")⟩, ⟨str ("1.01"), str ("a")⟩]⟩] none).map
        (fun u => u.roadmap) =
      .ok ⟨[⟨str ("1"), str ("T"), str ("D"),
        [⟨str ("1.02"), str ("b"), .pending⟩, ⟨str ("1.01"), str ("a"), .pending⟩]⟩]⟩ ∧
    ∃ qa qb : ℚ, parseFloatM (str ("1.02")) = some qa ∧
      parseFloatM (str ("1.01")) = some qb ∧ qb < qa :=
  ⟨rfl, (digitsVal (str ("1")) : ℚ) + (digitsVal (str ("02")) : ℚ) / ((10 : ℚ) ^ (str ("02")).length),
   (digitsVal (str ("1")) : ℚ) + (digitsVal (str ("01")) : ℚ) / ((10 : ℚ) ^ (str ("01")).length),
   rfl, rfl, by
    norm_num [show digitsVal (str ("1")) = 1 from rfl, show digitsVal (str ("02")) = 2 from rfl,
      show digitsVal (str ("01")) = 1 from rfl, show (str ("02")).length = 2 from rfl,
      show (str ("01")).length = 2 from rfl]⟩

/-- C3 amended: after a successful merge the features are sorted ascending
by the numeric (`parseInt`) value of their numbers, and an existing
feature that received at least one genuinely new action has its actions
sorted ascending by the numeric (`parseFloat`) value of their numbers —
but a brand-new feature keeps its proposed actions in input order (see the
counterexample), so the per-feature clause holds only for the re-sorted
existing-feature branch. -/
theorem C3_amended {P : List InputFeature} {cur : Option Roadmap} {R : Roadmap}
    (h : (createRoadmapTransform P cur).map (fun u => u.roadmap) = .ok R) :
    R.features.Chain' (fun f g => ∃ qf qg : Int,
      parseIntM f.number = some qf ∧ parseIntM g.number = some qg ∧ qf ≤ qg) ∧
    ∀ g ∈ P, ∀ ex, findFeature ((cur.getD ⟨[]⟩).features) g.number = some ex →
      (∃ a ∈ g.actions, ¬ ∃ x ∈ ex.actions, x.number = a.number) →
      ∀ f2 ∈ R.features, f2.number = g.number →
        f2.actions.Chain' (fun a b => ∃ qa qb : ℚ,
          parseFloatM a.number = some qa ∧ parseFloatM b.number = some qb ∧ qa ≤ qb) := by
  cases hu : createRoadmapTransform P cur with
  | error e =>
    rw [hu] at h
    exact absurd h (by simp [Except.map])
  | ok u =>
    rw [hu] at h
    have hR : u.roadmap = R := by
      simp only [Except.map] at h
      injection h
    obtain ⟨s, hs, he, M, hm, hz, hf, hur⟩ := transform_ok_elim hu
    have hRf : R.features = sortFeatures M := by rw [← hR, hur]
    obtain ⟨hfmt, hnd⟩ := featureSeqPairs_facts hf
    have hvalid : ∀ f ∈ sortFeatures M, (parseIntM f.number).isSome = true := by
      intro f hfm
      rw [parseIntM_digits (hfmt f hfm).1]
      rfl
    have hpw : (sortFeatures M).Pairwise fun f g => leF f g = true := by
      refine pairwise_sortByLe (Q := fun (f : Feature) => (parseIntM f.number).isSome = true)
        (fun a b ha hb => leF_total ha hb)
        (fun a b c ha hb hc h1 h2 => leF_trans ha hb hc h1 h2) ?_
      intro y hy
      exact hvalid y ((sortByLe_perm leF M).mem_iff.mpr hy)
    refine ⟨?_, ?_⟩
    · rw [hRf]
      refine List.Pairwise.chain' ?_
      refine List.Pairwise.imp_of_mem ?_ hpw
      intro a b hma hmb hab
      obtain ⟨qa, hqa⟩ := Option.isSome_iff_exists.mp (hvalid a hma)
      obtain ⟨qb, hqb⟩ := Option.isSome_iff_exists.mp (hvalid b hmb)
      exact ⟨qa, qb, hqa, hqb, (leF_iff hqa hqb).mp hab⟩
    · intro g hg ex hfind hnew f2 hf2 hnum2
      rw [List.append_eq_nil] at he
      have hmerged : ({ ex with actions := mergeActions ex.actions g.actions } : Feature) ∈ M :=
        mergeLoop_post_existing hm (inputSeqPairs_facts he.2).2 g hg ex hfind
      have hmergedS : ({ ex with actions := mergeActions ex.actions g.actions } : Feature) ∈
          sortFeatures M := (sortByLe_perm leF M).mem_iff.mpr hmerged
      have hf2S : f2 ∈ sortFeatures M := by rw [← hRf]; exact hf2
      have heqf : f2 = { ex with actions := mergeActions ex.actions g.actions } := by
        refine eq_of_mem_nodup_number hnd hf2S hmergedS ?_
        show f2.number = ex.number
        rw [hnum2, findFeature_number hfind]
      obtain ⟨l, hl⟩ := mergeActions_new_shape hnew
      have hact : f2.actions = sortActions l := by
        rw [heqf]
        exact hl
      have hvalidA : ∀ a ∈ sortActions l, (parseFloatM a.number).isSome = true := by
        intro a ha
        have haf2 : a ∈ f2.actions := by rw [hact]; exact ha
        obtain ⟨q, hq⟩ := parseFloatM_format ((hfmt f2 hf2S).2 a haf2)
        rw [hq]
        rfl
      have hpwA : (sortActions l).Pairwise fun a b => leA a b = true := by
        refine pairwise_sortByLe (Q := fun (a : Action) => (parseFloatM a.number).isSome = true)
          (fun a b ha hb => leA_total ha hb)
          (fun a b c ha hb hc h1 h2 => leA_trans ha hb hc h1 h2) ?_
        intro y hy
        exact hvalidA y ((sortByLe_perm leA l).mem_iff.mpr hy)
      rw [hact]
      refine List.Pairwise.chain' ?_
      refine List.Pairwise.imp_of_mem ?_ hpwA
      intro a b hma hmb hab
      obtain ⟨qa, hqa⟩ := Option.isSome_iff_exists.mp (hvalidA a hma)
      obtain ⟨qb, hqb⟩ := Option.isSome_iff_exists.mp (hvalidA b hmb)
      exact ⟨qa, qb, hqa, hqb, (leA_iff hqa hqb).mp hab⟩

set_option maxHeartbeats 2000000 in
set_option maxRecDepth 8000 in
/-- Witness for C3 (amended): two features proposed out of order come back
sorted ascending by feature number. -/
theorem C3_witness :
    (⟨[⟨str ("1"), str ("T"), str ("D"), [⟨str ("1.01"), str ("a"), .pending⟩]⟩,
       ⟨str ("2"), str ("U"), str ("E"), [⟨str ("2.01"), str ("c"), .pending⟩]⟩]⟩ :
        Roadmap).features.Chain' (fun f g => ∃ qf qg : Int,
      parseIntM f.number = some qf ∧ parseIntM g.number = some qg ∧ qf ≤ qg) ∧
    ∀ g ∈ ([⟨str ("2"), str ("U"), str ("E"), [⟨str ("2.01"), str ("c")⟩]⟩,
            ⟨str ("1"), str ("T"), str ("D"), [⟨str ("1.01"), str ("a")⟩]⟩] :
            List InputFeature),
      ∀ ex, findFeature (((none : Option Roadmap).getD ⟨[]⟩).features) g.number = some ex →
      (∃ a ∈ g.actions, ¬ ∃ x ∈ ex.actions, x.number = a.number) →
      ∀ f2 ∈ (⟨[⟨str ("1"), str ("T"), str ("D"), [⟨str ("1.01"), str ("a"), .pending⟩]⟩,
        ⟨str ("2"), str ("U"), str ("E"), [⟨str ("2.01"), str ("c"), .pending⟩]⟩]⟩ :
          Roadmap).features, f2.number = g.number →
        f2.actions.Chain' (fun a b => ∃ qa qb : ℚ,
          parseFloatM a.number = some qa ∧ parseFloatM b.number = some qb ∧ qa ≤ qb) :=
  C3_amended (show (createRoadmapTransform
      [⟨str ("2"), str ("U"), str ("E"), [⟨str ("2.01"), str ("c")⟩]⟩,
       ⟨str ("1"), str ("T"), str ("D"), [⟨str ("1.01"), str ("a")⟩]⟩] none).map
      (fun u => u.roadmap) =
    .ok ⟨[⟨str ("1"), str ("T"), str ("D"), [⟨str ("1.01"), str ("a"), .pending⟩]⟩,
          ⟨str ("2"), str ("U"), str ("E"), [⟨str ("2.01"), str ("c"), .pending⟩]⟩]⟩ from rfl)

/-- C5.  Idempotent merge: if merging the proposed batch `P` into the
current document succeeds and yields the roadmap `R`, then merging the
same batch `P` again — now against `R` — succeeds and yields `R`
unchanged: every proposed action is already present and is skipped
silently, re-submitting identical titles/descriptions is not an error,
and the re-sort is the identity on the already-sorted tree. -/
theorem C5_idempotent_merge {P : List InputFeature} {cur : Option Roadmap} {R : Roadmap}
    (h : (createRoadmapTransform P cur).map (fun u => u.roadmap) = .ok R) :
    (createRoadmapTransform P (some R)).map (fun u => u.roadmap) = .ok R := by
  cases hu : createRoadmapTransform P cur with
  | error e =>
    rw [hu] at h
    exact absurd h (by simp [Except.map])
  | ok u =>
    rw [hu] at h
    have hR : u.roadmap = R := by
      simp only [Except.map] at h
      injection h
    obtain ⟨s, hs, he, M, hm, hz, hf, hur⟩ := transform_ok_elim hu
    have hRf : R.features = sortFeatures M := by rw [← hR, hur]
    obtain ⟨hfmt, hnd⟩ := featureSeqPairs_facts hf
    rw [List.append_eq_nil] at he
    have hndP := (inputSeqPairs_facts he.2).2
    have hvalid : ∀ f ∈ sortFeatures M, (parseIntM f.number).isSome = true := by
      intro f hfm
      rw [parseIntM_digits (hfmt f hfm).1]
      rfl
    have hpw : (sortFeatures M).Pairwise fun f g => leF f g = true := by
      refine pairwise_sortByLe (Q := fun (f : Feature) => (parseIntM f.number).isSome = true)
        (fun a b ha hb => leF_total ha hb)
        (fun a b c ha hb hc h1 h2 => leF_trans ha hb hc h1 h2) ?_
      intro y hy
      exact hvalid y ((sortByLe_perm leF M).mem_iff.mpr hy)
    have hsid : sortFeatures (sortFeatures M) = sortFeatures M := sortByLe_eq_self hpw
    have hm2 : mergeLoop (((some R : Option Roadmap).getD ⟨[]⟩).features) P =
        .ok (sortFeatures M) := by
      show mergeLoop R.features P = .ok (sortFeatures M)
      rw [hRf]
      refine mergeLoop_self ?_
      intro g hg
      obtain ⟨f2, hf2M, hnum, ht, hd, hcov⟩ := mergeLoop_post hm hndP g hg
      have hf2S : f2 ∈ sortFeatures M := (sortByLe_perm leF M).mem_iff.mpr hf2M
      refine ⟨f2, ?_, ht, hd, hcov⟩
      have hend := findFeature_unique hnd hf2S
      rw [hnum] at hend
      exact hend
    have hintro := transform_ok_intro hs (by rw [he.1, he.2]; rfl) hm2
      (by rw [hsid]; exact hz) (by rw [hsid]; exact hf)
    rw [hintro]
    simp only [Except.map]
    rw [hsid, ← hRf]

set_option maxHeartbeats 2000000 in
set_option maxRecDepth 8000 in
/-- Witness for C5: merging a one-feature batch against its own merge
result returns that result unchanged. -/
theorem C5_witness :
    (createRoadmapTransform [⟨str ("1"), str ("T"), str ("D"), [⟨str ("1.01"), str ("a")⟩]⟩]
        (some ⟨[⟨str ("1"), str ("T"), str ("D"),
          [⟨str ("1.01"), str ("a"), .pending⟩]⟩]⟩)).map (fun u => u.roadmap) =
      .ok ⟨[⟨str ("1"), str ("T"), str ("D"), [⟨str ("1.01"), str ("a"), .pending⟩]⟩]⟩ :=
  C5_idempotent_merge (show (createRoadmapTransform
      [⟨str ("1"), str ("T"), str ("D"), [⟨str ("1.01"), str ("a")⟩]⟩] none).map
      (fun u => u.roadmap) =
    .ok ⟨[⟨str ("1"), str ("T"), str ("D"),
      [⟨str ("1.01"), str ("a"), .pending⟩]⟩]⟩ from rfl)

set_option maxHeartbeats 2000000 in
set_option maxRecDepth 8000 in
/-- C6 counterexample: a proposal that carries an existing feature number
with a differing (here: empty, hence invalid) title does not fail with the
immutable-field violation — input validation runs first, so the call fails
with a validation error instead.  The second conjunct shows the stored
document really holds feature 1 with title "A", different from the
proposed title. -/
theorem C6_counterexample :
    createRoadmapExecute [⟨str ("1"), [], str ("D"), [⟨str ("1.01"), str ("x")⟩]⟩]
        ⟨some (stringifyRoadmap ⟨[⟨str ("1"), str ("A"), str ("D"),
          [⟨str ("1.01"), str ("a"), .pending⟩]⟩]⟩), none⟩ =
      (.error (.domain (.validationErrors
        [⟨"INVALID_TITLE", "Invalid feature title. Must be non-empty string."⟩])),
       ⟨some (stringifyRoadmap ⟨[⟨str ("1"), str ("A"), str ("D"),
          [⟨str ("1.01"), str ("a"), .pending⟩]⟩]⟩), none⟩, false) ∧
    readFromDisk (some (stringifyRoadmap ⟨[⟨str ("1"), str ("A"), str ("D"),
        [⟨str ("1.01"), str ("a"), .pending⟩]⟩]⟩)) =
      .ok (some ⟨[⟨str ("1"), str ("A"), str ("D"),
        [⟨str ("1.01"), str ("a"), .pending⟩]⟩]⟩) ∧
    str ("A") ≠ ([] : Str) :=
  ⟨rfl, rfl, by decide⟩

/-- C6 amended: for a proposal that passes input validation, carrying an
existing feature number with a differing title or description always fails
with the immutable-field violation, the on-disk document is unchanged and
the lock is released. -/
theorem C6_amended {P : List InputFeature} {st : StorageState} {cur : Roadmap}
    {s : List ValidationError}
    (hread : readFromDisk st.file = .ok (some cur))
    (hs : structuralPass P = .ok s)
    (he : s ++ validateFeatureSequence (inputSeqPairs P) = [])
    (hviol : ∃ g ∈ P, ∃ ex, findFeature cur.features g.number = some ex ∧
      (ex.title ≠ g.title ∨ ex.description ≠ g.description)) :
    ∃ a b c d e2, createRoadmapExecute P st =
      (.error (.domain (.immutableViolation a b c d e2)), st, false) := by
  obtain ⟨a, b, c, d, e2, hml⟩ := mergeLoop_immutable hviol
  have htr : createRoadmapTransform P (some cur) =
      .error (.immutableViolation a b c d e2) :=
    transform_merge_error hs he hml
  have hP : P ≠ [] := by
    intro hnil
    obtain ⟨g, hg, -⟩ := hviol
    rw [hnil] at hg
    simp at hg
  refine ⟨a, b, c, d, e2, ?_⟩
  rw [createRoadmapExecute, if_neg hP, updateRun]
  simp only [hread, htr]

set_option maxHeartbeats 2000000 in
set_option maxRecDepth 8000 in
/-- Witness for C6 (amended): proposing feature 1 with title "B" while the
stored document holds title "A" fails with the immutable-field violation
and leaves the file untouched. -/
theorem C6_witness :
    ∃ a b c d e2, createRoadmapExecute
        [⟨str ("1"), str ("B"), str ("D"), [⟨str ("1.01"), str ("a")⟩]⟩]
        ⟨some (stringifyRoadmap ⟨[⟨str ("1"), str ("A"), str ("D"),
          [⟨str ("1.01"), str ("a"), .pending⟩]⟩]⟩), none⟩ =
      (.error (.domain (.immutableViolation a b c d e2)),
       ⟨some (stringifyRoadmap ⟨[⟨str ("1"), str ("A"), str ("D"),
          [⟨str ("1.01"), str ("a"), .pending⟩]⟩]⟩), none⟩, false) :=
  C6_amended
    (show readFromDisk (some (stringifyRoadmap ⟨[⟨str ("1"), str ("A"), str ("D"),
        [⟨str ("1.01"), str ("a"), .pending⟩]⟩]⟩)) =
      .ok (some ⟨[⟨str ("1"), str ("A"), str ("D"),
        [⟨str ("1.01"), str ("a"), .pending⟩]⟩]⟩) from rfl)
    (show structuralPass [⟨str ("1"), str ("B"), str ("D"), [⟨str ("1.01"), str ("a")⟩]⟩] =
      .ok [] from rfl)
    (by rfl)
    ⟨⟨str ("1"), str ("B"), str ("D"), [⟨str ("1.01"), str ("a")⟩]⟩,
     List.mem_cons_self _ _,
     ⟨str ("1"), str ("A"), str ("D"), [⟨str ("1.01"), str ("a"), .pending⟩]⟩,
     by rfl, Or.inl (by decide)⟩

end Opencode
